import Mathlib

/-!
# Verification of the iplc pipeline/cache simulator (`src/iplc-sim.c`)

A shallow embedding of the trace-driven five-stage pipeline simulator with a
set-associative LRU cache, together with proofs of the specification claims.

The C program's per-set doubly linked recency list uses raw pointers between
the `cache_line_t` nodes of one set's `lines` array; here a pointer to a line
is represented by the line's way index within the set (`Option Nat`, `none`
for `NULL`).  Machine integers (`uint`) are represented by `Nat`; the only
place where 32-bit wraparound can matter, `pipeline[DECODE].instruction_address
+ 4`, reduces modulo `2 ^ 32` explicitly.
-/

namespace IplcSim

/-- `CACHE_MISS_DELAY` from the C source: 10 cycle cache miss penalty. -/
def CACHE_MISS_DELAY : Nat := 10

/-- `MAX_CACHE_SIZE` from the C source. -/
def MAX_CACHE_SIZE : Nat := 10240

/-- `cache_line_t`: valid bit, tag, and the intrusive recency-list pointers.
`lru_prev` / `lru_next` are way indices within the same set (`none` = `NULL`). -/
structure CacheLine where
  valid : Bool
  tag : Nat
  lru_prev : Option Nat
  lru_next : Option Nat
deriving Repr, DecidableEq

instance : Inhabited CacheLine := ⟨⟨false, 0, none, none⟩⟩

/-- `cache_set_t`: the ways of the set plus the head (MRU) and tail (LRU)
pointers of the recency chain, as way indices. -/
structure CacheSet where
  lines : List CacheLine
  lru_head : Nat
  lru_tail : Nat
deriving Repr, DecidableEq

instance : Inhabited CacheSet := ⟨⟨[], 0, 0⟩⟩

/-- Read way `i` of a set (array indexing `cache[index].lines[i]`). -/
def getLine (s : CacheSet) (i : Nat) : CacheLine :=
  s.lines.getD i default

/-- Write way `i` of a set through an update function. -/
def setLine (s : CacheSet) (i : Nat) (f : CacheLine → CacheLine) : CacheSet :=
  { s with lines := s.lines.set i (f (getLine s i)) }

/-- The cache and its counters: the global state the C cache functions touch
(`cache`, `cache_index`, `cache_blockoffsetbits`, `cache_assoc`,
`cache_access`, `cache_hit`, `cache_miss`). -/
structure CacheState where
  sets : List CacheSet
  cache_index : Nat
  cache_blockoffsetbits : Nat
  cache_assoc : Nat
  cache_access : Nat
  cache_hit : Nat
  cache_miss : Nat
deriving Repr, DecidableEq

/-- One freshly allocated set, as built by the allocation loop of
`iplc_sim_init`: `assoc` invalid lines with `NULL` links and
`lru_head = lru_tail = &lines[0]`. -/
def initSet (assoc : Nat) : CacheSet :=
  { lines := List.replicate assoc ⟨false, 0, none, none⟩
    lru_head := 0
    lru_tail := 0 }

/-- The cache state right after a successful `iplc_sim_init`, with the block
offset width `boBits` already computed. -/
def mkCacheState (index boBits assoc : Nat) : CacheState :=
  { sets := List.replicate (1 <<< index) (initSet assoc)
    cache_index := index
    cache_blockoffsetbits := boBits
    cache_assoc := assoc
    cache_access := 0
    cache_hit := 0
    cache_miss := 0 }

/-- The shared suffix of `iplc_sim_LRU_replace_on_miss`: mark way `li` valid
with the given tag, then, unless it already is the head, splice it at the MRU
end (`lru_head->lru_next = line; line->lru_prev = lru_head;
line->lru_next = NULL; lru_head = line`). -/
def installMRU (s : CacheSet) (li : Nat) (tag : Nat) : CacheSet :=
  let s2 := setLine s li (fun l => { l with valid := true, tag := tag })
  if li = s2.lru_head then s2
  else
    let s3 := setLine s2 s2.lru_head (fun l => { l with lru_next := some li })
    let s4 := setLine s3 li
      (fun l => { l with lru_prev := some s3.lru_head, lru_next := none })
    { s4 with lru_head := li }

/-- `iplc_sim_LRU_replace_on_miss`, acting on the indexed set.
`assoc_entry = some i` fills unused slot `i`; `assoc_entry = none` (the C
call with `-1`) replaces the oldest entry at the tail, first advancing the
tail when the chain has more than one node. -/
def iplc_sim_LRU_replace_on_miss (s : CacheSet) (assoc_entry : Option Nat)
    (tag : Nat) : CacheSet :=
  match assoc_entry with
  | some i => installMRU s i tag
  | none =>
    match (getLine s s.lru_tail).lru_next with
    | some nxt =>
      installMRU
        (setLine { s with lru_tail := nxt } nxt
          (fun l => { l with lru_prev := none }))
        s.lru_tail tag
    | none => installMRU s s.lru_tail tag

/-- `iplc_sim_LRU_update_on_hit`, acting on the indexed set: promote way
`assoc_entry` to the MRU end of the recency chain.  When the line's
`lru_next` is `NULL` it already is the head and nothing is done.  The match
on the pre-state `lru_prev` is faithful to the C (the preceding store
`line->lru_next->lru_prev = line->lru_prev` can only rewrite that field to
the value it already had). -/
def iplc_sim_LRU_update_on_hit (s : CacheSet) (assoc_entry : Nat) : CacheSet :=
  match (getLine s assoc_entry).lru_next with
  | none => s
  | some nxt =>
    let s1 := setLine s nxt
      (fun l => { l with lru_prev := (getLine s assoc_entry).lru_prev })
    let s2 :=
      match (getLine s assoc_entry).lru_prev with
      | some prv => setLine s1 prv (fun l => { l with lru_next := some nxt })
      | none =>
        setLine { s1 with lru_tail := nxt } nxt
          (fun l => { l with lru_prev := none })
    let s3 := setLine s2 s2.lru_head
      (fun l => { l with lru_next := some assoc_entry })
    let s4 := setLine s3 assoc_entry
      (fun l => { l with lru_prev := some s3.lru_head, lru_next := none })
    { s4 with lru_head := assoc_entry }

/-- Result of the way-scan loop inside `iplc_sim_trap_address`: a hit at way
`i`, a cold miss stopping at the first invalid way `i`, or a full miss after
scanning every way. -/
inductive ScanResult where
  | hit (i : Nat)
  | coldMiss (i : Nat)
  | fullMiss
deriving Repr, DecidableEq

/-- The scan loop of `iplc_sim_trap_address` over the remaining ways,
`i` being the index of the first line of `rest` within the set. -/
def scanWays (tag : Nat) : Nat → List CacheLine → ScanResult
  | _, [] => .fullMiss
  | i, l :: rest =>
    if l.valid then
      if l.tag = tag then .hit i else scanWays tag (i + 1) rest
    else .coldMiss i

/-- Index extraction of `iplc_sim_trap_address`:
`(address & (((1 << cache_index) - 1) << cache_blockoffsetbits)) >> cache_blockoffsetbits`. -/
def trapIndex (st : CacheState) (address : Nat) : Nat :=
  (address &&& (((1 <<< st.cache_index) - 1) <<< st.cache_blockoffsetbits)) >>>
    st.cache_blockoffsetbits

/-- Tag extraction of `iplc_sim_trap_address`:
`address >> (cache_blockoffsetbits + cache_index)`. -/
def trapTag (st : CacheState) (address : Nat) : Nat :=
  address >>> (st.cache_blockoffsetbits + st.cache_index)

/-- `iplc_sim_trap_address`: probe the cache for `address`, updating the
counters and the indexed set's recency structure; returns the hit flag
(`true` for the C return value `1`). -/
def iplc_sim_trap_address (st : CacheState) (address : Nat) :
    Bool × CacheState :=
  let index := trapIndex st address
  let tag := trapTag st address
  let st1 := { st with cache_access := st.cache_access + 1 }
  let s := st1.sets.getD index default
  match scanWays tag 0 s.lines with
  | .hit i =>
    (true,
      { st1 with
        cache_hit := st1.cache_hit + 1
        sets := st1.sets.set index (iplc_sim_LRU_update_on_hit s i) })
  | .coldMiss i =>
    (false,
      { st1 with
        cache_miss := st1.cache_miss + 1
        sets := st1.sets.set index (iplc_sim_LRU_replace_on_miss s (some i) tag) })
  | .fullMiss =>
    (false,
      { st1 with
        cache_miss := st1.cache_miss + 1
        sets := st1.sets.set index (iplc_sim_LRU_replace_on_miss s none tag) })

/-- Fold a list of probed addresses through `iplc_sim_trap_address`. -/
def probeList (st : CacheState) (as : List Nat) : CacheState :=
  as.foldl (fun s a => (iplc_sim_trap_address s a).2) st

/-- Cache states reachable from a freshly initialised cache by any sequence
of probes.  `assoc ≥ 1` is the configuration contract (`assoc` ways per
set). -/
inductive CacheReachable : CacheState → Prop where
  | init (index boBits assoc : Nat) (ha : 1 ≤ assoc) :
      CacheReachable (mkCacheState index boBits assoc)
  | step (st : CacheState) (a : Nat) : CacheReachable st →
      CacheReachable (iplc_sim_trap_address st a).2

/-! ## Basic lemmas about line access and the scan loop -/

theorem setLine_length (s : CacheSet) (i : Nat) (f : CacheLine → CacheLine) :
    (setLine s i f).lines.length = s.lines.length := by
  simp [setLine]

theorem setLine_lru_head (s : CacheSet) (i : Nat) (f : CacheLine → CacheLine) :
    (setLine s i f).lru_head = s.lru_head := rfl

theorem setLine_lru_tail (s : CacheSet) (i : Nat) (f : CacheLine → CacheLine) :
    (setLine s i f).lru_tail = s.lru_tail := rfl

theorem getLine_setLine_self (s : CacheSet) (i : Nat) (f : CacheLine → CacheLine)
    (h : i < s.lines.length) :
    getLine (setLine s i f) i = f (getLine s i) := by
  simp [getLine, setLine, List.getD_eq_getElem?_getD, List.getElem?_set_self, h]

theorem getLine_setLine_ne (s : CacheSet) (i j : Nat) (f : CacheLine → CacheLine)
    (h : i ≠ j) :
    getLine (setLine s i f) j = getLine s j := by
  simp [getLine, setLine, List.getD_eq_getElem?_getD, List.getElem?_set_ne h]

theorem getLine_initSet (assoc i : Nat) (h : i < assoc) :
    getLine (initSet assoc) i = ⟨false, 0, none, none⟩ := by
  simp [getLine, initSet, List.getD_eq_getElem?_getD, List.getElem?_replicate, h]

/-- Bump the way index reported by a scan result. -/
def ScanResult.succIdx : ScanResult → ScanResult
  | .hit i => .hit (i + 1)
  | .coldMiss i => .coldMiss (i + 1)
  | .fullMiss => .fullMiss

/-- Shifting the start index of the scan loop shifts the reported way. -/
theorem scanWays_succ (tag : Nat) (ws : List CacheLine) :
    ∀ k, scanWays tag (k + 1) ws = (scanWays tag k ws).succIdx := by
  induction ws with
  | nil => intro k; simp [scanWays, ScanResult.succIdx]
  | cons l rest ih =>
    intro k
    by_cases hv : l.valid
    · by_cases ht : l.tag = tag
      · simp [scanWays, hv, ht, ScanResult.succIdx]
      · simp only [scanWays, hv, ht, if_true, if_false]
        exact ih (k + 1)
    · simp [scanWays, hv, ScanResult.succIdx]

theorem scanWays_hit_spec (tag : Nat) (ws : List CacheLine) (i : Nat)
    (h : scanWays tag 0 ws = .hit i) :
    i < ws.length ∧ (ws.getD i default).valid = true ∧
      (ws.getD i default).tag = tag ∧
      ∀ j < i, (ws.getD j default).valid = true ∧ (ws.getD j default).tag ≠ tag := by
  induction ws generalizing i with
  | nil => simp [scanWays] at h
  | cons l rest ih =>
    by_cases hv : l.valid
    · by_cases ht : l.tag = tag
      · simp only [scanWays, hv, ht, if_true] at h
        cases h
        refine ⟨by simp, by simpa using hv, by simpa using ht, ?_⟩
        intro j hj; omega
      · simp only [scanWays, hv, ht, if_true, if_false] at h
        rw [scanWays_succ] at h
        cases hrest : scanWays tag 0 rest with
        | coldMiss i' =>
          rw [hrest] at h; simp only [ScanResult.succIdx] at h; cases h
        | fullMiss =>
          rw [hrest] at h; simp only [ScanResult.succIdx] at h; cases h
        | hit i' =>
          rw [hrest] at h
          simp only [ScanResult.succIdx] at h
          injection h with h'
          subst h'
          obtain ⟨h1, h2, h3, h4⟩ := ih i' hrest
          exact ⟨by simp; omega, h2, h3, fun j hj => by
            cases j with
            | zero => exact ⟨by simpa using hv, by simpa using ht⟩
            | succ j' => exact h4 j' (by omega)⟩
    · simp [scanWays, hv] at h

theorem scanWays_coldMiss_spec (tag : Nat) (ws : List CacheLine) (i : Nat)
    (h : scanWays tag 0 ws = .coldMiss i) :
    i < ws.length ∧ (ws.getD i default).valid = false ∧
      ∀ j < i, (ws.getD j default).valid = true ∧ (ws.getD j default).tag ≠ tag := by
  induction ws generalizing i with
  | nil => simp [scanWays] at h
  | cons l rest ih =>
    by_cases hv : l.valid
    · by_cases ht : l.tag = tag
      · simp [scanWays, hv, ht] at h
      · simp only [scanWays, hv, ht, if_true, if_false] at h
        rw [scanWays_succ] at h
        cases hrest : scanWays tag 0 rest with
        | hit i' =>
          rw [hrest] at h; simp only [ScanResult.succIdx] at h; cases h
        | fullMiss =>
          rw [hrest] at h; simp only [ScanResult.succIdx] at h; cases h
        | coldMiss i' =>
          rw [hrest] at h
          simp only [ScanResult.succIdx] at h
          injection h with h'
          subst h'
          obtain ⟨h1, h2, h3⟩ := ih i' hrest
          exact ⟨by simp; omega, h2, fun j hj => by
            cases j with
            | zero => exact ⟨by simpa using hv, by simpa using ht⟩
            | succ j' => exact h3 j' (by omega)⟩
    · simp only [scanWays, hv, if_false] at h
      cases h
      exact ⟨by simp, by simpa using hv, by intro j hj; omega⟩

theorem scanWays_fullMiss_spec (tag : Nat) (ws : List CacheLine)
    (h : scanWays tag 0 ws = .fullMiss) :
    ∀ j < ws.length, (ws.getD j default).valid = true ∧
      (ws.getD j default).tag ≠ tag := by
  induction ws with
  | nil => intro j hj; simp at hj
  | cons l rest ih =>
    by_cases hv : l.valid
    · by_cases ht : l.tag = tag
      · simp [scanWays, hv, ht] at h
      · simp only [scanWays, hv, ht, if_true, if_false] at h
        rw [scanWays_succ] at h
        cases hrest : scanWays tag 0 rest with
        | hit i' =>
          rw [hrest] at h; simp only [ScanResult.succIdx] at h; cases h
        | coldMiss i' =>
          rw [hrest] at h; simp only [ScanResult.succIdx] at h; cases h
        | fullMiss =>
          intro j hj
          cases j with
          | zero => exact ⟨by simpa using hv, by simpa using ht⟩
          | succ j' => exact ih hrest j' (by simpa using hj)
    · simp [scanWays, hv] at h

/-! ## Preservation of valid bits and tags by the LRU chain operations -/

/-- The (valid, tag) payload of a line, as opposed to its recency pointers. -/
def vtOf (l : CacheLine) : Bool × Nat := (l.valid, l.tag)

theorem setLine_out_of_range (s : CacheSet) (k : Nat) (f : CacheLine → CacheLine)
    (h : s.lines.length ≤ k) : setLine s k f = s := by
  simp [setLine, List.set_eq_of_length_le h]

theorem getLine_setLine_vt {f : CacheLine → CacheLine}
    (hf : ∀ l, vtOf (f l) = vtOf l) (s : CacheSet) (k j : Nat) :
    vtOf (getLine (setLine s k f) j) = vtOf (getLine s j) := by
  by_cases hkj : k = j
  · subst hkj
    by_cases hk : k < s.lines.length
    · rw [getLine_setLine_self _ _ _ hk]; exact hf _
    · rw [setLine_out_of_range _ _ _ (le_of_not_lt hk)]
  · rw [getLine_setLine_ne _ _ _ _ hkj]

theorem getLine_chgHead (s : CacheSet) (h j : Nat) :
    getLine { s with lru_head := h } j = getLine s j := rfl

theorem getLine_chgTail (s : CacheSet) (t j : Nat) :
    getLine { s with lru_tail := t } j = getLine s j := rfl

theorem vt_set_prev (s : CacheSet) (k j : Nat) (p : Option Nat) :
    vtOf (getLine (setLine s k (fun l => { l with lru_prev := p })) j) =
      vtOf (getLine s j) :=
  getLine_setLine_vt (f := fun l => { l with lru_prev := p }) (fun _ => rfl) s k j

theorem vt_set_next (s : CacheSet) (k j : Nat) (nx : Option Nat) :
    vtOf (getLine (setLine s k (fun l => { l with lru_next := nx })) j) =
      vtOf (getLine s j) :=
  getLine_setLine_vt (f := fun l => { l with lru_next := nx }) (fun _ => rfl) s k j

theorem vt_set_pn (s : CacheSet) (k j : Nat) (p : Option Nat) :
    vtOf (getLine (setLine s k
      (fun l => { l with lru_prev := p, lru_next := none })) j) =
      vtOf (getLine s j) :=
  getLine_setLine_vt (f := fun l => { l with lru_prev := p, lru_next := none })
    (fun _ => rfl) s k j

/-- `iplc_sim_LRU_update_on_hit` never touches a line's valid bit or tag. -/
theorem update_on_hit_vt (s : CacheSet) (i j : Nat) :
    vtOf (getLine (iplc_sim_LRU_update_on_hit s i) j) = vtOf (getLine s j) := by
  unfold iplc_sim_LRU_update_on_hit
  cases hn : (getLine s i).lru_next with
  | none => rfl
  | some nxt =>
    cases hp : (getLine s i).lru_prev with
    | some prv =>
      simp only [hp, getLine_chgHead, vt_set_pn, vt_set_next, vt_set_prev]
    | none =>
      simp only [hp, getLine_chgHead, getLine_chgTail, vt_set_pn, vt_set_next,
        vt_set_prev]

theorem installMRU_length (s : CacheSet) (li tag : Nat) :
    (installMRU s li tag).lines.length = s.lines.length := by
  simp only [installMRU]
  split
  · exact setLine_length ..
  · simp [setLine_length]

theorem replace_on_miss_length (s : CacheSet) (e : Option Nat) (tag : Nat) :
    (iplc_sim_LRU_replace_on_miss s e tag).lines.length = s.lines.length := by
  unfold iplc_sim_LRU_replace_on_miss
  cases e with
  | some i => exact installMRU_length ..
  | none =>
    cases (getLine s s.lru_tail).lru_next with
    | some nxt => rw [installMRU_length, setLine_length]
    | none => exact installMRU_length ..

theorem update_on_hit_length (s : CacheSet) (i : Nat) :
    (iplc_sim_LRU_update_on_hit s i).lines.length = s.lines.length := by
  unfold iplc_sim_LRU_update_on_hit
  cases (getLine s i).lru_next with
  | none => rfl
  | some nxt =>
    cases (getLine s i).lru_prev with
    | some prv => simp [setLine_length]
    | none => simp [setLine_length]

theorem installMRU_vt (s : CacheSet) (li tag j : Nat) :
    vtOf (getLine (installMRU s li tag) j) =
      vtOf (getLine (setLine s li fun l => { l with valid := true, tag := tag }) j) := by
  simp only [installMRU]
  split
  · rfl
  · simp only [getLine_chgHead, vt_set_pn, vt_set_next]

theorem installMRU_vt_self (s : CacheSet) (li tag : Nat)
    (h : li < s.lines.length) :
    vtOf (getLine (installMRU s li tag) li) = (true, tag) := by
  rw [installMRU_vt, getLine_setLine_self _ _ _ h]
  rfl

theorem installMRU_vt_other (s : CacheSet) (li tag j : Nat) (h : j ≠ li) :
    vtOf (getLine (installMRU s li tag) j) = vtOf (getLine s j) := by
  rw [installMRU_vt, getLine_setLine_ne _ _ _ _ (Ne.symm h)]

/-- The way that `iplc_sim_LRU_replace_on_miss` installs into: the explicit
slot, or the LRU tail for the replace-the-oldest call. -/
def replaceSlot (s : CacheSet) (e : Option Nat) : Nat :=
  match e with
  | some i => i
  | none => s.lru_tail

theorem replace_on_miss_vt_self (s : CacheSet) (e : Option Nat) (tag : Nat)
    (h : replaceSlot s e < s.lines.length) :
    vtOf (getLine (iplc_sim_LRU_replace_on_miss s e tag) (replaceSlot s e)) =
      (true, tag) := by
  cases e with
  | some i =>
    simp only [replaceSlot] at h ⊢
    simp only [iplc_sim_LRU_replace_on_miss]
    exact installMRU_vt_self _ _ _ h
  | none =>
    simp only [replaceSlot] at h ⊢
    simp only [iplc_sim_LRU_replace_on_miss]
    cases (getLine s s.lru_tail).lru_next with
    | some nxt =>
      rw [installMRU_vt]
      have hlen : s.lru_tail <
          (setLine { s with lru_tail := nxt } nxt
            (fun l => { l with lru_prev := none })).lines.length := by
        rw [setLine_length]; exact h
      rw [getLine_setLine_self _ _ _ hlen]
      rfl
    | none => exact installMRU_vt_self _ _ _ h

theorem replace_on_miss_vt_other (s : CacheSet) (e : Option Nat) (tag j : Nat)
    (h : j ≠ replaceSlot s e) :
    vtOf (getLine (iplc_sim_LRU_replace_on_miss s e tag) j) =
      vtOf (getLine s j) := by
  cases e with
  | some i =>
    simp only [replaceSlot] at h
    simp only [iplc_sim_LRU_replace_on_miss]
    exact installMRU_vt_other _ _ _ _ h
  | none =>
    simp only [replaceSlot] at h
    simp only [iplc_sim_LRU_replace_on_miss]
    cases (getLine s s.lru_tail).lru_next with
    | some nxt =>
      rw [installMRU_vt_other _ _ _ _ h]
      exact (vt_set_prev _ _ _ _).trans (by rw [getLine_chgTail])
    | none => exact installMRU_vt_other _ _ _ _ h

/-! ## The valid-prefix invariant of reachable cache states -/

/-- The valid lines of a set form a contiguous prefix of its `lines` array. -/
def ValidPrefix (s : CacheSet) : Prop :=
  ∀ i j : Nat, i ≤ j → (getLine s j).valid = true → (getLine s i).valid = true

/-- The structural invariant the probe loop maintains on the whole cache. -/
structure CacheInv (st : CacheState) : Prop where
  sets_length : st.sets.length = 1 <<< st.cache_index
  lines_length : ∀ s ∈ st.sets, s.lines.length = st.cache_assoc
  assoc_pos : 1 ≤ st.cache_assoc
  validPrefix : ∀ s ∈ st.sets, ValidPrefix s
  counters : st.cache_access = st.cache_hit + st.cache_miss

/-- Explicit description of `iplc_sim_trap_address` by the three outcomes of
the way scan. -/
theorem trap_cases (st : CacheState) (a : Nat) :
    (∃ i, scanWays (trapTag st a) 0
        (st.sets.getD (trapIndex st a) default).lines = .hit i ∧
      iplc_sim_trap_address st a = (true,
        { st with
          cache_access := st.cache_access + 1
          cache_hit := st.cache_hit + 1
          sets := st.sets.set (trapIndex st a)
            (iplc_sim_LRU_update_on_hit
              (st.sets.getD (trapIndex st a) default) i) })) ∨
    (∃ i, scanWays (trapTag st a) 0
        (st.sets.getD (trapIndex st a) default).lines = .coldMiss i ∧
      iplc_sim_trap_address st a = (false,
        { st with
          cache_access := st.cache_access + 1
          cache_miss := st.cache_miss + 1
          sets := st.sets.set (trapIndex st a)
            (iplc_sim_LRU_replace_on_miss
              (st.sets.getD (trapIndex st a) default) (some i)
              (trapTag st a)) })) ∨
    (scanWays (trapTag st a) 0
        (st.sets.getD (trapIndex st a) default).lines = .fullMiss ∧
      iplc_sim_trap_address st a = (false,
        { st with
          cache_access := st.cache_access + 1
          cache_miss := st.cache_miss + 1
          sets := st.sets.set (trapIndex st a)
            (iplc_sim_LRU_replace_on_miss
              (st.sets.getD (trapIndex st a) default) none
              (trapTag st a)) })) := by
  cases h : scanWays (trapTag st a) 0
      (st.sets.getD (trapIndex st a) default).lines with
  | hit i =>
    exact Or.inl ⟨i, rfl, by simp only [iplc_sim_trap_address]; rw [h]⟩
  | coldMiss i =>
    exact Or.inr (Or.inl ⟨i, rfl, by simp only [iplc_sim_trap_address]; rw [h]⟩)
  | fullMiss =>
    exact Or.inr (Or.inr ⟨rfl, by simp only [iplc_sim_trap_address]; rw [h]⟩)

/-- Bitwise fact justifying the index formula: masking then shifting equals
shifting then masking. -/
theorem and_shiftLeft_shiftRight (a m B : Nat) :
    (a &&& (m <<< B)) >>> B = (a >>> B) &&& m := by
  apply Nat.eq_of_testBit_eq
  intro i
  simp only [Nat.testBit_shiftRight, Nat.testBit_and, Nat.testBit_shiftLeft]
  have h1 : B ≤ B + i := Nat.le_add_right ..
  have h2 : B + i - B = i := by omega
  simp [h1, h2]

theorem trapIndex_eq (st : CacheState) (a : Nat) :
    trapIndex st a =
      (a >>> st.cache_blockoffsetbits) &&& ((1 <<< st.cache_index) - 1) :=
  and_shiftLeft_shiftRight ..

theorem trapIndex_lt (st : CacheState) (a : Nat) :
    trapIndex st a < 1 <<< st.cache_index := by
  rw [trapIndex_eq]
  have h1 : (a >>> st.cache_blockoffsetbits) &&& ((1 <<< st.cache_index) - 1) ≤
      (1 <<< st.cache_index) - 1 := Nat.and_le_right
  have h2 : 0 < 1 <<< st.cache_index := by
    rw [Nat.shiftLeft_eq, one_mul]
    exact Nat.pos_pow_of_pos _ (by omega)
  omega

theorem getD_mem {α : Type} [Inhabited α] {l : List α} {idx : Nat}
    (h : idx < l.length) : l.getD idx default ∈ l := by
  rw [List.getD_eq_getElem?_getD, List.getElem?_eq_getElem h]
  exact List.getElem_mem _

theorem valid_update_on_hit (s : CacheSet) (i j : Nat) :
    (getLine (iplc_sim_LRU_update_on_hit s i) j).valid = (getLine s j).valid :=
  congrArg Prod.fst (update_on_hit_vt s i j)

theorem valid_replace_self (s : CacheSet) (e : Option Nat) (tag : Nat)
    (h : replaceSlot s e < s.lines.length) :
    (getLine (iplc_sim_LRU_replace_on_miss s e tag) (replaceSlot s e)).valid =
      true :=
  congrArg Prod.fst (replace_on_miss_vt_self s e tag h)

theorem valid_replace_other (s : CacheSet) (e : Option Nat) (tag j : Nat)
    (h : j ≠ replaceSlot s e) :
    (getLine (iplc_sim_LRU_replace_on_miss s e tag) j).valid =
      (getLine s j).valid :=
  congrArg Prod.fst (replace_on_miss_vt_other s e tag j h)

theorem valid_out_of_range (s : CacheSet) (j : Nat) (h : s.lines.length ≤ j) :
    (getLine s j).valid = false := by
  simp only [getLine, List.getD_eq_getElem?_getD, List.getElem?_eq_none h]
  rfl

theorem valid_in_range (s : CacheSet) (j : Nat)
    (h : (getLine s j).valid = true) : j < s.lines.length := by
  by_contra hc
  rw [valid_out_of_range s j (le_of_not_lt hc)] at h
  cases h

/-- A hit-promotion keeps the valid-prefix shape. -/
theorem validPrefix_update_on_hit (s : CacheSet) (i : Nat)
    (h : ValidPrefix s) : ValidPrefix (iplc_sim_LRU_update_on_hit s i) := by
  intro i' j' hle hv
  rw [valid_update_on_hit] at hv ⊢
  exact h i' j' hle hv

/-- A cold-miss install at the first invalid way keeps the valid-prefix
shape. -/
theorem validPrefix_replace_cold (s : CacheSet) (i tag : Nat)
    (hlt : i < s.lines.length)
    (hbelow : ∀ m < i, (getLine s m).valid = true)
    (h : ValidPrefix s) :
    ValidPrefix (iplc_sim_LRU_replace_on_miss s (some i) tag) := by
  intro i' j' hle hv
  by_cases hi' : i' = i
  · rw [hi']
    rw [show i = replaceSlot s (some i) from rfl]
    exact valid_replace_self s (some i) tag (by simpa [replaceSlot] using hlt)
  · rw [valid_replace_other s (some i) tag i' (by simpa [replaceSlot] using hi')]
    by_cases hj' : j' = i
    · subst hj'
      exact hbelow i' (by omega)
    · rw [valid_replace_other s (some i) tag j'
        (by simpa [replaceSlot] using hj')] at hv
      exact h i' j' hle hv

/-- A capacity-miss replacement in a fully valid set keeps the valid-prefix
shape. -/
theorem validPrefix_replace_full (s : CacheSet) (tag : Nat)
    (hall : ∀ m < s.lines.length, (getLine s m).valid = true) :
    ValidPrefix (iplc_sim_LRU_replace_on_miss s none tag) := by
  intro i' j' hle hv
  have hlen : (iplc_sim_LRU_replace_on_miss s none tag).lines.length =
      s.lines.length := replace_on_miss_length ..
  have hj'lt : j' < s.lines.length := by
    have := valid_in_range _ j' hv
    omega
  have hi'lt : i' < s.lines.length := by omega
  by_cases hi' : i' = s.lru_tail
  · rw [hi']
    rw [show s.lru_tail = replaceSlot s none from rfl]
    refine valid_replace_self s none tag ?_
    simp only [replaceSlot]
    omega
  · rw [valid_replace_other s none tag i' (by simpa [replaceSlot] using hi')]
    exact hall i' hi'lt

/-- One probe preserves the structural cache invariant. -/
theorem trap_preserves_inv (st : CacheState) (a : Nat) (hinv : CacheInv st) :
    CacheInv (iplc_sim_trap_address st a).2 := by
  have hidx : trapIndex st a < st.sets.length := by
    rw [hinv.sets_length]; exact trapIndex_lt st a
  have hmem : st.sets.getD (trapIndex st a) default ∈ st.sets := getD_mem hidx
  have hslen : (st.sets.getD (trapIndex st a) default).lines.length =
      st.cache_assoc := hinv.lines_length _ hmem
  have hpre : ValidPrefix (st.sets.getD (trapIndex st a) default) :=
    hinv.validPrefix _ hmem
  rcases trap_cases st a with ⟨i, hscan, heq⟩ | ⟨i, hscan, heq⟩ | ⟨hscan, heq⟩ <;>
    rw [heq] <;>
    refine ⟨by simpa using hinv.sets_length, ?_, hinv.assoc_pos, ?_, ?_⟩
  · intro s' hs'
    rcases List.mem_or_eq_of_mem_set hs' with hold | hnew
    · exact hinv.lines_length _ hold
    · rw [hnew, update_on_hit_length]; exact hslen
  · intro s' hs'
    rcases List.mem_or_eq_of_mem_set hs' with hold | hnew
    · exact hinv.validPrefix _ hold
    · rw [hnew]; exact validPrefix_update_on_hit _ _ hpre
  · have := hinv.counters; simp; omega
  · intro s' hs'
    rcases List.mem_or_eq_of_mem_set hs' with hold | hnew
    · exact hinv.lines_length _ hold
    · rw [hnew, replace_on_miss_length]; exact hslen
  · intro s' hs'
    rcases List.mem_or_eq_of_mem_set hs' with hold | hnew
    · exact hinv.validPrefix _ hold
    · rw [hnew]
      obtain ⟨h1, h2, h3⟩ := scanWays_coldMiss_spec _ _ _ hscan
      exact validPrefix_replace_cold _ _ _ h1 (fun m hm => (h3 m hm).1) hpre
  · have := hinv.counters; simp; omega
  · intro s' hs'
    rcases List.mem_or_eq_of_mem_set hs' with hold | hnew
    · exact hinv.lines_length _ hold
    · rw [hnew, replace_on_miss_length]; exact hslen
  · intro s' hs'
    rcases List.mem_or_eq_of_mem_set hs' with hold | hnew
    · exact hinv.validPrefix _ hold
    · rw [hnew]
      exact validPrefix_replace_full _ _
        (fun m hm => (scanWays_fullMiss_spec _ _ hscan m hm).1)
  · have := hinv.counters; simp; omega

/-- The structural invariant holds in the freshly initialised cache. -/
theorem mkCacheState_inv (index boBits assoc : Nat) (ha : 1 ≤ assoc) :
    CacheInv (mkCacheState index boBits assoc) := by
  refine ⟨by simp [mkCacheState], ?_, ha, ?_, rfl⟩
  · intro s hs
    rw [List.eq_of_mem_replicate hs]
    simp [initSet, mkCacheState]
  · intro s hs
    rw [List.eq_of_mem_replicate hs]
    intro i j hle hv
    by_cases hj : j < assoc
    · rw [getLine_initSet assoc j hj] at hv; cases hv
    · rw [valid_out_of_range] at hv
      · cases hv
      · simp [initSet]; omega

/-- Every reachable cache state satisfies the structural invariant. -/
theorem reachable_inv {st : CacheState} (h : CacheReachable st) : CacheInv st := by
  induction h with
  | init index boBits assoc ha => exact mkCacheState_inv index boBits assoc ha
  | step st a _ ih => exact trap_preserves_inv st a ih

theorem getD_set_self {α : Type} [Inhabited α] (l : List α) (i : Nat) (v : α)
    (h : i < l.length) : (l.set i v).getD i default = v := by
  simp [List.getD_eq_getElem?_getD, List.getElem?_set_self, h]

theorem getD_set_ne {α : Type} [Inhabited α] (l : List α) (i j : Nat) (v : α)
    (h : i ≠ j) : (l.set i v).getD j default = l.getD j default := by
  simp [List.getD_eq_getElem?_getD, List.getElem?_set_ne h]

/-- If the scan reports a hit the returned flag is `true`, with the hit and
access counters bumped; on a miss the flag is `false` with the miss counter
bumped. -/
theorem trap_counter_shape (st : CacheState) (a : Nat) :
    (iplc_sim_trap_address st a).2.cache_access = st.cache_access + 1 ∧
    ((iplc_sim_trap_address st a).1 = true →
      (iplc_sim_trap_address st a).2.cache_hit = st.cache_hit + 1 ∧
      (iplc_sim_trap_address st a).2.cache_miss = st.cache_miss) ∧
    ((iplc_sim_trap_address st a).1 = false →
      (iplc_sim_trap_address st a).2.cache_miss = st.cache_miss + 1 ∧
      (iplc_sim_trap_address st a).2.cache_hit = st.cache_hit) := by
  rcases trap_cases st a with ⟨i, _, heq⟩ | ⟨i, _, heq⟩ | ⟨_, heq⟩ <;>
    rw [heq] <;> simp

/-- With the structural invariant, the probe answers `hit` precisely when
some valid way of the indexed set stores the probed tag. -/
theorem trap_hit_iff (st : CacheState) (a : Nat) (hinv : CacheInv st) :
    (iplc_sim_trap_address st a).1 = true ↔
      ∃ i < st.cache_assoc,
        (getLine (st.sets.getD (trapIndex st a) default) i).valid = true ∧
        (getLine (st.sets.getD (trapIndex st a) default) i).tag =
          trapTag st a := by
  have hidx : trapIndex st a < st.sets.length := by
    rw [hinv.sets_length]; exact trapIndex_lt st a
  have hmem : st.sets.getD (trapIndex st a) default ∈ st.sets := getD_mem hidx
  have hslen : (st.sets.getD (trapIndex st a) default).lines.length =
      st.cache_assoc := hinv.lines_length _ hmem
  have hpre : ValidPrefix (st.sets.getD (trapIndex st a) default) :=
    hinv.validPrefix _ hmem
  rcases trap_cases st a with ⟨i, hscan, heq⟩ | ⟨i, hscan, heq⟩ | ⟨hscan, heq⟩ <;>
    rw [heq]
  · obtain ⟨h1, h2, h3, _⟩ := scanWays_hit_spec _ _ _ hscan
    exact iff_of_true rfl ⟨i, by omega, h2, h3⟩
  · obtain ⟨h1, h2, h3⟩ := scanWays_coldMiss_spec _ _ _ hscan
    have h2' : (getLine (st.sets.getD (trapIndex st a) default) i).valid =
        false := h2
    refine iff_of_false (by simp) ?_
    rintro ⟨i0, hi0, hv0, ht0⟩
    rcases lt_trichotomy i0 i with hlt | hej | hgt
    · exact (h3 i0 hlt).2 ht0
    · rw [hej] at hv0; rw [h2'] at hv0; cases hv0
    · have := hpre i i0 (by omega) hv0
      rw [h2'] at this; cases this
  · have h3 := scanWays_fullMiss_spec _ _ hscan
    refine iff_of_false (by simp) ?_
    rintro ⟨i0, hi0, hv0, ht0⟩
    exact (h3 i0 (by omega)).2 ht0

/-- **C1** For every reachable cache state and every address, the probe
`iplc_sim_trap_address` computes `index = (address >> B) & ((1 << I) - 1)`
and `tag = address >> (I + B)`, always increments `cache_access` by exactly
one, answers hit (bumping `cache_hit`) exactly when some valid way of the
indexed set stores that tag and miss (bumping `cache_miss`) otherwise, and
afterwards `cache_access = cache_hit + cache_miss` holds. -/
theorem trap_address_spec (st : CacheState) (address : Nat)
    (h : CacheReachable st) :
    trapIndex st address =
      (address >>> st.cache_blockoffsetbits) &&& ((1 <<< st.cache_index) - 1) ∧
    trapTag st address =
      address >>> (st.cache_index + st.cache_blockoffsetbits) ∧
    (iplc_sim_trap_address st address).2.cache_access = st.cache_access + 1 ∧
    ((iplc_sim_trap_address st address).1 = true ↔
      ∃ i < st.cache_assoc,
        (getLine (st.sets.getD (trapIndex st address) default) i).valid = true ∧
        (getLine (st.sets.getD (trapIndex st address) default) i).tag =
          trapTag st address) ∧
    ((iplc_sim_trap_address st address).1 = true →
      (iplc_sim_trap_address st address).2.cache_hit = st.cache_hit + 1 ∧
      (iplc_sim_trap_address st address).2.cache_miss = st.cache_miss) ∧
    ((iplc_sim_trap_address st address).1 = false →
      (iplc_sim_trap_address st address).2.cache_miss = st.cache_miss + 1 ∧
      (iplc_sim_trap_address st address).2.cache_hit = st.cache_hit) ∧
    (iplc_sim_trap_address st address).2.cache_access =
      (iplc_sim_trap_address st address).2.cache_hit +
        (iplc_sim_trap_address st address).2.cache_miss := by
  have hinv := reachable_inv h
  have hinv' := trap_preserves_inv st address hinv
  obtain ⟨hacc, hhit, hmiss⟩ := trap_counter_shape st address
  exact ⟨trapIndex_eq st address,
    by rw [trapTag, Nat.add_comm],
    hacc, trap_hit_iff st address hinv, hhit, hmiss, hinv'.counters⟩

/-- Witness for `trap_address_spec` at the freshly initialised cache with
`I = 2`, `B = 2`, `assoc = 1` probed with address `0x1000`. -/
theorem trap_address_spec_witness :
    trapIndex (mkCacheState 2 2 1) 4096 =
      ((4096 : Nat) >>> (mkCacheState 2 2 1).cache_blockoffsetbits) &&&
        ((1 <<< (mkCacheState 2 2 1).cache_index) - 1) ∧
    trapTag (mkCacheState 2 2 1) 4096 =
      (4096 : Nat) >>> ((mkCacheState 2 2 1).cache_index +
        (mkCacheState 2 2 1).cache_blockoffsetbits) ∧
    (iplc_sim_trap_address (mkCacheState 2 2 1) 4096).2.cache_access =
      (mkCacheState 2 2 1).cache_access + 1 ∧
    ((iplc_sim_trap_address (mkCacheState 2 2 1) 4096).1 = true ↔
      ∃ i < (mkCacheState 2 2 1).cache_assoc,
        (getLine ((mkCacheState 2 2 1).sets.getD
          (trapIndex (mkCacheState 2 2 1) 4096) default) i).valid = true ∧
        (getLine ((mkCacheState 2 2 1).sets.getD
          (trapIndex (mkCacheState 2 2 1) 4096) default) i).tag =
          trapTag (mkCacheState 2 2 1) 4096) ∧
    ((iplc_sim_trap_address (mkCacheState 2 2 1) 4096).1 = true →
      (iplc_sim_trap_address (mkCacheState 2 2 1) 4096).2.cache_hit =
        (mkCacheState 2 2 1).cache_hit + 1 ∧
      (iplc_sim_trap_address (mkCacheState 2 2 1) 4096).2.cache_miss =
        (mkCacheState 2 2 1).cache_miss) ∧
    ((iplc_sim_trap_address (mkCacheState 2 2 1) 4096).1 = false →
      (iplc_sim_trap_address (mkCacheState 2 2 1) 4096).2.cache_miss =
        (mkCacheState 2 2 1).cache_miss + 1 ∧
      (iplc_sim_trap_address (mkCacheState 2 2 1) 4096).2.cache_hit =
        (mkCacheState 2 2 1).cache_hit) ∧
    (iplc_sim_trap_address (mkCacheState 2 2 1) 4096).2.cache_access =
      (iplc_sim_trap_address (mkCacheState 2 2 1) 4096).2.cache_hit +
        (iplc_sim_trap_address (mkCacheState 2 2 1) 4096).2.cache_miss :=
  trap_address_spec (mkCacheState 2 2 1) 4096
    (CacheReachable.init 2 2 1 (by norm_num))

/-- **C9** In every reachable cache state the valid lines of a set form a
contiguous prefix of its ways, probes never clear a valid bit, and the
early-exit miss verdict of the scan is correct: no way at or past the first
invalid way can hold the probed tag. -/
theorem valid_prefix_invariant (st : CacheState) (h : CacheReachable st) :
    (∀ s ∈ st.sets, ∀ i j : Nat, i ≤ j → (getLine s j).valid = true →
      (getLine s i).valid = true) ∧
    (∀ a : Nat, ∀ idx : Nat, ∀ w : Nat,
      (getLine (st.sets.getD idx default) w).valid = true →
      (getLine ((iplc_sim_trap_address st a).2.sets.getD idx default) w).valid
        = true) ∧
    (∀ s ∈ st.sets, ∀ tag i : Nat, scanWays tag 0 s.lines = .coldMiss i →
      ∀ j : Nat, i ≤ j →
        ¬((getLine s j).valid = true ∧ (getLine s j).tag = tag)) := by
  have hinv := reachable_inv h
  refine ⟨hinv.validPrefix, ?_, ?_⟩
  · intro a idx w hv
    have hval : ∀ v : CacheSet,
        (iplc_sim_trap_address st a).2.sets = st.sets.set (trapIndex st a) v →
        (∀ w' : Nat, (getLine (st.sets.getD (trapIndex st a) default) w').valid
            = true → (getLine v w').valid = true) →
        (getLine ((iplc_sim_trap_address st a).2.sets.getD idx default) w).valid
          = true := by
      intro v hsets hmono
      rw [hsets]
      by_cases hidx : trapIndex st a = idx
      · subst hidx
        by_cases hrange : trapIndex st a < st.sets.length
        · rw [getD_set_self _ _ _ hrange]
          exact hmono w hv
        · rw [List.set_eq_of_length_le (le_of_not_lt hrange)]
          exact hv
      · rw [getD_set_ne _ _ _ _ hidx]
        exact hv
    rcases trap_cases st a with ⟨i, hscan, heq⟩ | ⟨i, hscan, heq⟩ | ⟨hscan, heq⟩
    · refine hval _ (by rw [heq]) ?_
      intro w' hv'
      rw [valid_update_on_hit]
      exact hv'
    · refine hval _ (by rw [heq]) ?_
      intro w' hv'
      by_cases hw : w' = replaceSlot (st.sets.getD (trapIndex st a) default)
          (some i)
      · rw [hw]
        exact valid_replace_self _ _ _ (by
          rw [← hw]
          exact valid_in_range _ _ hv')
      · rw [valid_replace_other _ _ _ _ hw]
        exact hv'
    · refine hval _ (by rw [heq]) ?_
      intro w' hv'
      by_cases hw : w' = replaceSlot (st.sets.getD (trapIndex st a) default)
          none
      · rw [hw]
        exact valid_replace_self _ _ _ (by
          rw [← hw]
          exact valid_in_range _ _ hv')
      · rw [valid_replace_other _ _ _ _ hw]
        exact hv'
  · intro s hs tag i hscan j hij
    obtain ⟨h1, h2, _⟩ := scanWays_coldMiss_spec _ _ _ hscan
    have h2' : (getLine s i).valid = false := h2
    rintro ⟨hv, -⟩
    have := hinv.validPrefix s hs i j hij hv
    rw [h2'] at this
    cases this

/-- Witness for `valid_prefix_invariant` at the freshly initialised cache. -/
theorem valid_prefix_invariant_witness :
    (∀ s ∈ (mkCacheState 2 2 2).sets, ∀ i j : Nat, i ≤ j →
      (getLine s j).valid = true → (getLine s i).valid = true) ∧
    (∀ a : Nat, ∀ idx : Nat, ∀ w : Nat,
      (getLine ((mkCacheState 2 2 2).sets.getD idx default) w).valid = true →
      (getLine ((iplc_sim_trap_address (mkCacheState 2 2 2) a).2.sets.getD
        idx default) w).valid = true) ∧
    (∀ s ∈ (mkCacheState 2 2 2).sets, ∀ tag i : Nat,
      scanWays tag 0 s.lines = .coldMiss i →
      ∀ j : Nat, i ≤ j →
        ¬((getLine s j).valid = true ∧ (getLine s j).tag = tag)) :=
  valid_prefix_invariant (mkCacheState 2 2 2)
    (CacheReachable.init 2 2 2 (by norm_num))

/-! ## Idempotence of hit promotion (claim C8) -/

/-- The way scan only looks at valid bits and tags, never at the recency
pointers. -/
theorem scanWays_vt_congr (tag : Nat) :
    ∀ (ws ws' : List CacheLine) (k : Nat), ws.length = ws'.length →
      (∀ j, vtOf (ws.getD j default) = vtOf (ws'.getD j default)) →
      scanWays tag k ws = scanWays tag k ws' := by
  intro ws
  induction ws with
  | nil =>
    intro ws' k hlen _
    cases ws' with
    | nil => rfl
    | cons l' rest' => simp at hlen
  | cons l rest ih =>
    intro ws' k hlen hvt
    cases ws' with
    | nil => simp at hlen
    | cons l' rest' =>
      have h0 := hvt 0
      have hv : l.valid = l'.valid := congrArg Prod.fst h0
      have ht : l.tag = l'.tag := congrArg Prod.snd h0
      simp only [scanWays, hv, ht]
      by_cases hvb : l'.valid
      · by_cases htb : l'.tag = tag
        · simp [hvb, htb]
        · simp only [hvb, htb, if_true, if_false]
          exact ih rest' (k + 1) (by simpa using hlen) (fun j => hvt (j + 1))
      · simp [hvb]

theorem lines_chgTail (s : CacheSet) (t : Nat) :
    ({ s with lru_tail := t } : CacheSet).lines.length = s.lines.length := rfl

theorem update_on_hit_next_none (s : CacheSet) (i : Nat)
    (h : (getLine s i).lru_next = none) :
    iplc_sim_LRU_update_on_hit s i = s := by
  simp only [iplc_sim_LRU_update_on_hit, h]

/-- After a promotion of an in-range way, that way's `lru_next` is `NULL`. -/
theorem update_on_hit_next_self (s : CacheSet) (i : Nat)
    (hi : i < s.lines.length) :
    (getLine (iplc_sim_LRU_update_on_hit s i) i).lru_next = none := by
  cases hn : (getLine s i).lru_next with
  | none => rw [update_on_hit_next_none s i hn]; exact hn
  | some nxt =>
    simp only [iplc_sim_LRU_update_on_hit, hn]
    cases hp : (getLine s i).lru_prev with
    | some prv =>
      rw [getLine_chgHead, getLine_setLine_self _ _ _ (by
        simp only [setLine_length, lines_chgTail]
        exact hi)]
    | none =>
      rw [getLine_chgHead, getLine_setLine_self _ _ _ (by
        simp only [setLine_length, lines_chgTail]
        exact hi)]

theorem update_on_hit_idem (s : CacheSet) (i : Nat) (hi : i < s.lines.length) :
    iplc_sim_LRU_update_on_hit (iplc_sim_LRU_update_on_hit s i) i =
      iplc_sim_LRU_update_on_hit s i :=
  update_on_hit_next_none _ i (update_on_hit_next_self s i hi)

theorem getD_out_of_range {α : Type} [Inhabited α] (l : List α) (i : Nat)
    (h : l.length ≤ i) : l.getD i default = default := by
  simp [List.getD_eq_getElem?_getD, List.getElem?_eq_none h]

/-- **C8** LRU promotion is idempotent: from any cache state in which an
address hits, probing it twice leaves every set exactly as a single probe
does (the second probe hits again and changes no recency structure). -/
theorem trap_hit_idempotent (st : CacheState) (a : Nat)
    (hhit : (iplc_sim_trap_address st a).1 = true) :
    (iplc_sim_trap_address (iplc_sim_trap_address st a).2 a).1 = true ∧
    (iplc_sim_trap_address (iplc_sim_trap_address st a).2 a).2.sets =
      (iplc_sim_trap_address st a).2.sets := by
  rcases trap_cases st a with ⟨i, hscan, heq⟩ | ⟨i, hscan, heq⟩ | ⟨hscan, heq⟩
  · obtain ⟨h1, -, -, -⟩ := scanWays_hit_spec _ _ _ hscan
    have hidxlt : trapIndex st a < st.sets.length := by
      by_contra hc
      rw [getD_out_of_range _ _ (le_of_not_lt hc)] at h1
      have hz : (default : CacheSet).lines.length = 0 := rfl
      omega
    have hsets1 : (iplc_sim_trap_address st a).2.sets =
        st.sets.set (trapIndex st a)
          (iplc_sim_LRU_update_on_hit
            (st.sets.getD (trapIndex st a) default) i) := by rw [heq]
    have hci : (iplc_sim_trap_address st a).2.cache_index = st.cache_index := by
      rw [heq]
    have hcb : (iplc_sim_trap_address st a).2.cache_blockoffsetbits =
        st.cache_blockoffsetbits := by rw [heq]
    have hidx2 : trapIndex (iplc_sim_trap_address st a).2 a = trapIndex st a := by
      unfold trapIndex; rw [hci, hcb]
    have htag2 : trapTag (iplc_sim_trap_address st a).2 a = trapTag st a := by
      unfold trapTag; rw [hci, hcb]
    have hgetD : (iplc_sim_trap_address st a).2.sets.getD
        (trapIndex (iplc_sim_trap_address st a).2 a) default =
        iplc_sim_LRU_update_on_hit (st.sets.getD (trapIndex st a) default) i := by
      rw [hidx2, hsets1]
      exact getD_set_self _ _ _ (by simpa using hidxlt)
    have hscan2 : scanWays (trapTag (iplc_sim_trap_address st a).2 a) 0
        ((iplc_sim_trap_address st a).2.sets.getD
          (trapIndex (iplc_sim_trap_address st a).2 a) default).lines =
        .hit i := by
      rw [htag2, hgetD,
        scanWays_vt_congr (trapTag st a)
          (iplc_sim_LRU_update_on_hit
            (st.sets.getD (trapIndex st a) default) i).lines
          (st.sets.getD (trapIndex st a) default).lines 0
          (update_on_hit_length _ i)
          (fun j => update_on_hit_vt _ i j)]
      exact hscan
    rcases trap_cases (iplc_sim_trap_address st a).2 a with
      ⟨i', hscan', heq'⟩ | ⟨i', hscan', heq'⟩ | ⟨hscan', heq'⟩
    · have hii : i' = i := by
        rw [hscan2] at hscan'
        injection hscan' with h'
        exact h'.symm
      constructor
      · rw [heq']
      · rw [heq']
        simp only
        rw [hii, hgetD, update_on_hit_idem _ i h1, hidx2, hsets1,
          List.set_set]
    · rw [hscan2] at hscan'; cases hscan'
    · rw [hscan2] at hscan'; cases hscan'
  · rw [heq] at hhit; cases hhit
  · rw [heq] at hhit; cases hhit

/-- Witness for `trap_hit_idempotent`: the state after one cold install of
address `0x1000` in a 2-way cache hits on the same address. -/
theorem trap_hit_idempotent_witness :
    (iplc_sim_trap_address
      (iplc_sim_trap_address (mkCacheState 2 2 2) 4096).2 4096).1 = true ∧
    ((iplc_sim_trap_address (iplc_sim_trap_address
        (iplc_sim_trap_address (mkCacheState 2 2 2) 4096).2 4096).2 4096).1
      = true ∧
    (iplc_sim_trap_address (iplc_sim_trap_address
        (iplc_sim_trap_address (mkCacheState 2 2 2) 4096).2 4096).2
        4096).2.sets =
      (iplc_sim_trap_address
        (iplc_sim_trap_address (mkCacheState 2 2 2) 4096).2 4096).2.sets) :=
  ⟨by decide, trap_hit_idempotent
    (iplc_sim_trap_address (mkCacheState 2 2 2) 4096).2 4096 (by decide)⟩

/-! ## Cold fill and eviction order (claim C5) -/

/-- Normal form of a set that has been cold-filled with `j` tags `T 0 … T
(j-1)` out of `k` ways: ways `0 … j-1` are valid and chained in fill order
(way `j-1` is MRU, way `0` is LRU), the remaining ways are untouched. -/
def coldSet (k j : Nat) (T : Nat → Nat) : CacheSet :=
  { lines := (List.range k).map (fun i =>
      if i < j then
        ⟨true, T i, if i = 0 then none else some (i - 1),
          if i + 1 = j then none else some (i + 1)⟩
      else ⟨false, 0, none, none⟩)
    lru_head := if j = 0 then 0 else j - 1
    lru_tail := 0 }

theorem coldSet_lines_length (k j : Nat) (T : Nat → Nat) :
    (coldSet k j T).lines.length = k := by
  simp [coldSet]

theorem getLine_coldSet (k j i : Nat) (T : Nat → Nat) (h : i < k) :
    getLine (coldSet k j T) i =
      if i < j then
        ⟨true, T i, if i = 0 then none else some (i - 1),
          if i + 1 = j then none else some (i + 1)⟩
      else ⟨false, 0, none, none⟩ := by
  simp [coldSet, getLine, List.getD_eq_getElem?_getD, List.getElem?_map,
    List.getElem?_range h]

theorem coldSet_zero (k : Nat) (T : Nat → Nat) : coldSet k 0 T = initSet k := by
  simp only [coldSet, initSet]
  congr 1
  rw [show (fun i => if i < 0 then
        (⟨true, T i, if i = 0 then none else some (i - 1),
          if i + 1 = 0 then none else some (i + 1)⟩ : CacheLine)
      else ⟨false, 0, none, none⟩) =
      (fun _ : Nat => (⟨false, 0, none, none⟩ : CacheLine)) from
    funext fun i => by simp]
  rw [List.map_const', List.length_range]

/-- Converse of the scan specification: the described shape forces a cold
miss at way `j`. -/
theorem scanWays_eq_coldMiss (tag0 : Nat) (ws : List CacheLine) :
    ∀ j : Nat, j < ws.length → (ws.getD j default).valid = false →
      (∀ m < j, (ws.getD m default).valid = true ∧
        (ws.getD m default).tag ≠ tag0) →
      scanWays tag0 0 ws = .coldMiss j := by
  induction ws with
  | nil => intro j hj; simp at hj
  | cons l rest ih =>
    intro j hj hinv hbelow
    cases j with
    | zero =>
      have : l.valid = false := hinv
      simp [scanWays, this]
    | succ j' =>
      obtain ⟨hv, ht⟩ := hbelow 0 (by omega)
      have hv' : l.valid = true := hv
      have ht' : l.tag ≠ tag0 := ht
      simp only [scanWays, hv', ht', if_true, if_false]
      rw [scanWays_succ, ih j' (by simpa using hj) hinv
        (fun m hm => hbelow (m + 1) (by omega))]
      rfl

/-- Converse of the scan specification: a fully valid set with no matching
tag forces a full miss. -/
theorem scanWays_eq_fullMiss (tag0 : Nat) (ws : List CacheLine) :
    (∀ m < ws.length, (ws.getD m default).valid = true ∧
      (ws.getD m default).tag ≠ tag0) →
    scanWays tag0 0 ws = .fullMiss := by
  induction ws with
  | nil => intro _; rfl
  | cons l rest ih =>
    intro hall
    obtain ⟨hv, ht⟩ := hall 0 (by simp)
    have hv' : l.valid = true := hv
    have ht' : l.tag ≠ tag0 := ht
    simp only [scanWays, hv', ht', if_true, if_false]
    rw [scanWays_succ, ih (fun m hm => hall (m + 1) (by simpa using hm))]
    rfl

theorem coldSet_scan (k j : Nat) (T : Nat → Nat) (hj : j < k)
    (hfresh : ∀ m < j, T m ≠ T j) :
    scanWays (T j) 0 (coldSet k j T).lines = .coldMiss j := by
  apply scanWays_eq_coldMiss
  · rw [coldSet_lines_length]; exact hj
  · have := getLine_coldSet k j j T hj
    rw [show ((coldSet k j T).lines.getD j default) =
        getLine (coldSet k j T) j from rfl, this]
    simp
  · intro m hm
    have hmk : m < k := by omega
    have := getLine_coldSet k j m T hmk
    rw [show ((coldSet k j T).lines.getD m default) =
        getLine (coldSet k j T) m from rfl, this]
    simp only [if_pos hm]
    exact ⟨by simp, by simpa using hfresh m hm⟩

theorem coldSet_full_scan (k : Nat) (T : Nat → Nat) (U : Nat)
    (hfresh : ∀ m < k, T m ≠ U) :
    scanWays U 0 (coldSet k k T).lines = .fullMiss := by
  apply scanWays_eq_fullMiss
  intro m hm
  rw [coldSet_lines_length] at hm
  have := getLine_coldSet k k m T hm
  rw [show ((coldSet k k T).lines.getD m default) =
      getLine (coldSet k k T) m from rfl, this]
  simp only [if_pos hm]
  exact ⟨by simp, by simpa using hfresh m hm⟩

theorem cacheSet_ext (s t : CacheSet) (hl : s.lines.length = t.lines.length)
    (hp : ∀ i < s.lines.length, getLine s i = getLine t i)
    (hh : s.lru_head = t.lru_head) (ht : s.lru_tail = t.lru_tail) : s = t := by
  cases s with
  | mk ls hs ts =>
    cases t with
    | mk lt hht tt =>
      simp only at hl hp hh ht
      subst hh; subst ht
      congr 1
      apply List.ext_getElem (by simpa using hl)
      intro i h1 h2
      have := hp i (by simpa using h1)
      simpa [getLine, List.getD_eq_getElem?_getD, List.getElem?_eq_getElem,
        h1, h2] using this

theorem length_chgHead (s : CacheSet) (h : Nat) :
    ({ s with lru_head := h } : CacheSet).lines.length = s.lines.length := rfl

theorem tail_chgHead (s : CacheSet) (h : Nat) :
    ({ s with lru_head := h } : CacheSet).lru_tail = s.lru_tail := rfl

theorem head_chgHead (s : CacheSet) (h : Nat) :
    ({ s with lru_head := h } : CacheSet).lru_head = h := rfl

theorem coldSet_lru_head (k j : Nat) (T : Nat → Nat) :
    (coldSet k j T).lru_head = if j = 0 then 0 else j - 1 := rfl

theorem coldSet_lru_tail (k j : Nat) (T : Nat → Nat) :
    (coldSet k j T).lru_tail = 0 := rfl

/-- Installing the `j`-th fresh tag into the cold-fill normal form yields the
next cold-fill normal form: the new way becomes valid with the new tag and is
spliced at the MRU end. -/
theorem coldSet_install (k j : Nat) (T : Nat → Nat) (hj : j < k) :
    iplc_sim_LRU_replace_on_miss (coldSet k j T) (some j) (T j) =
      coldSet k (j + 1) T := by
  have hlk : (coldSet k j T).lines.length = k := coldSet_lines_length ..
  simp only [iplc_sim_LRU_replace_on_miss, installMRU]
  by_cases hj0 : j = 0
  · subst hj0
    rw [if_pos (by rw [setLine_lru_head, coldSet_lru_head]; simp)]
    apply cacheSet_ext
    · rw [setLine_length, hlk, coldSet_lines_length]
    · intro i hi
      rw [setLine_length, hlk] at hi
      by_cases h0 : i = 0
      · subst h0
        rw [getLine_setLine_self _ _ _ (by rw [hlk]; exact hj),
          getLine_coldSet _ _ _ _ hi, getLine_coldSet _ _ _ _ hi]
        simp
      · rw [getLine_setLine_ne _ _ _ _ (Ne.symm h0),
          getLine_coldSet _ _ _ _ hi, getLine_coldSet _ _ _ _ hi]
        simp [h0]
    · rw [setLine_lru_head, coldSet_lru_head, coldSet_lru_head]; simp
    · rw [setLine_lru_tail, coldSet_lru_tail, coldSet_lru_tail]
  · have hj1 : 1 ≤ j := Nat.one_le_iff_ne_zero.mpr hj0
    have hch : (coldSet k j T).lru_head = j - 1 := by
      rw [coldSet_lru_head, if_neg hj0]
    simp only [setLine_lru_head, hch]
    rw [if_neg (by omega)]
    set s2 := setLine (coldSet k j T) j
      (fun l => { l with valid := true, tag := T j }) with hs2
    set s3 := setLine s2 (j - 1)
      (fun l => { l with lru_next := some j }) with hs3
    have hl2 : s2.lines.length = k := by rw [hs2, setLine_length, hlk]
    have hl3 : s3.lines.length = k := by rw [hs3, setLine_length, hl2]
    have hb2 : j < (coldSet k j T).lines.length := by omega
    have hb2m : j - 1 < s2.lines.length := by omega
    have hb3 : j < s3.lines.length := by omega
    have hnejm : j ≠ j - 1 := by omega
    have hnejm' : j - 1 ≠ j := by omega
    apply cacheSet_ext
    · rw [length_chgHead, setLine_length, hl3, coldSet_lines_length]
    · intro i hi
      rw [length_chgHead, setLine_length, hl3] at hi
      rw [getLine_chgHead]
      by_cases hij : i = j
      · rw [hij] at hi ⊢
        rw [getLine_setLine_self s3 j _ hb3, hs3,
          getLine_setLine_ne s2 (j - 1) j _ hnejm', hs2,
          getLine_setLine_self _ j _ hb2,
          getLine_coldSet _ _ _ _ hi, getLine_coldSet _ _ _ _ hi]
        have e1 : ¬(j < j) := by omega
        have e2 : j < j + 1 := by omega
        simp [e1, e2, hj0]
      · by_cases hijm : i = j - 1
        · rw [hijm] at hi ⊢
          rw [getLine_setLine_ne s3 j (j - 1) _ (by omega), hs3,
            getLine_setLine_self s2 (j - 1) _ (by omega), hs2,
            getLine_setLine_ne _ j (j - 1) _ (by omega),
            getLine_coldSet _ _ _ _ hi, getLine_coldSet _ _ _ _ hi]
          have e1 : j - 1 < j := by omega
          have e2 : j - 1 < j + 1 := by omega
          have e3 : j - 1 + 1 = j := by omega
          have e4 : ¬(j - 1 + 1 = j + 1) := by omega
          simp [e1, e2, e3, e4]
        · rw [getLine_setLine_ne s3 j i _ (by omega), hs3,
            getLine_setLine_ne s2 (j - 1) i _ (by omega), hs2,
            getLine_setLine_ne _ j i _ (by omega),
            getLine_coldSet _ _ _ _ hi, getLine_coldSet _ _ _ _ hi]
          by_cases hlt : i < j
          · have f1 : i < j + 1 := by omega
            have f2 : ¬(i + 1 = j) := by omega
            have f3 : ¬(i + 1 = j + 1) := by omega
            simp [hlt, f1, f2, f3]
          · have f1 : ¬(i < j + 1) := by omega
            simp [hlt, f1]
    · rw [head_chgHead, coldSet_lru_head, if_neg (by omega)]
      omega
    · rw [tail_chgHead, setLine_lru_tail, hs3, setLine_lru_tail, hs2,
        setLine_lru_tail, coldSet_lru_tail, coldSet_lru_tail]

theorem trap_eq_hit (st : CacheState) (a i : Nat)
    (h : scanWays (trapTag st a) 0
      (st.sets.getD (trapIndex st a) default).lines = .hit i) :
    iplc_sim_trap_address st a = (true,
      { st with
        cache_access := st.cache_access + 1
        cache_hit := st.cache_hit + 1
        sets := st.sets.set (trapIndex st a)
          (iplc_sim_LRU_update_on_hit
            (st.sets.getD (trapIndex st a) default) i) }) := by
  rcases trap_cases st a with ⟨i', h', heq⟩ | ⟨i', h', heq⟩ | ⟨h', heq⟩ <;>
    rw [h] at h'
  · injection h' with h''
    rw [heq, h'']
  · cases h'
  · cases h'

theorem trap_eq_coldMiss (st : CacheState) (a i : Nat)
    (h : scanWays (trapTag st a) 0
      (st.sets.getD (trapIndex st a) default).lines = .coldMiss i) :
    iplc_sim_trap_address st a = (false,
      { st with
        cache_access := st.cache_access + 1
        cache_miss := st.cache_miss + 1
        sets := st.sets.set (trapIndex st a)
          (iplc_sim_LRU_replace_on_miss
            (st.sets.getD (trapIndex st a) default) (some i)
            (trapTag st a)) }) := by
  rcases trap_cases st a with ⟨i', h', heq⟩ | ⟨i', h', heq⟩ | ⟨h', heq⟩ <;>
    rw [h] at h'
  · cases h'
  · injection h' with h''
    rw [heq, h'']
  · cases h'

theorem trap_eq_fullMiss (st : CacheState) (a : Nat)
    (h : scanWays (trapTag st a) 0
      (st.sets.getD (trapIndex st a) default).lines = .fullMiss) :
    iplc_sim_trap_address st a = (false,
      { st with
        cache_access := st.cache_access + 1
        cache_miss := st.cache_miss + 1
        sets := st.sets.set (trapIndex st a)
          (iplc_sim_LRU_replace_on_miss
            (st.sets.getD (trapIndex st a) default) none
            (trapTag st a)) }) := by
  rcases trap_cases st a with ⟨i', h', heq⟩ | ⟨i', h', heq⟩ | ⟨h', heq⟩ <;>
    rw [h] at h'
  · cases h'
  · cases h'
  · exact heq

theorem trapIndex_congr (st st' : CacheState) (a : Nat)
    (h1 : st'.cache_index = st.cache_index)
    (h2 : st'.cache_blockoffsetbits = st.cache_blockoffsetbits) :
    trapIndex st' a = trapIndex st a := by
  unfold trapIndex; rw [h1, h2]

theorem trapTag_congr (st st' : CacheState) (a : Nat)
    (h1 : st'.cache_index = st.cache_index)
    (h2 : st'.cache_blockoffsetbits = st.cache_blockoffsetbits) :
    trapTag st' a = trapTag st a := by
  unfold trapTag; rw [h1, h2]

/-- The payload of the set after evicting the LRU way (way `0`) of a fully
cold-filled set: way `0` now stores the new tag, all other ways keep their
fill tags. -/
theorem coldSet_evict_vt (k : Nat) (T : Nat → Nat) (U : Nat) (hk : 1 ≤ k) :
    ∀ i < k, vtOf (getLine
        (iplc_sim_LRU_replace_on_miss (coldSet k k T) none U) i) =
      if i = 0 then (true, U) else (true, T i) := by
  intro i hik
  by_cases h0 : i = 0
  · subst h0
    rw [if_pos rfl]
    rw [show (0 : Nat) = replaceSlot (coldSet k k T) none from rfl]
    exact replace_on_miss_vt_self _ _ _ (by
      simp only [replaceSlot, coldSet_lru_tail, coldSet_lines_length]
      omega)
  · rw [if_neg h0,
      replace_on_miss_vt_other _ _ _ _ (by
        simp only [replaceSlot, coldSet_lru_tail]
        exact h0),
      getLine_coldSet _ _ _ _ hik, if_pos hik]
    rfl

theorem trap_coldMiss_parts (st : CacheState) (a i : Nat)
    (h : scanWays (trapTag st a) 0
      (st.sets.getD (trapIndex st a) default).lines = .coldMiss i) :
    (iplc_sim_trap_address st a).1 = false ∧
    (iplc_sim_trap_address st a).2.sets = st.sets.set (trapIndex st a)
      (iplc_sim_LRU_replace_on_miss
        (st.sets.getD (trapIndex st a) default) (some i) (trapTag st a)) ∧
    (iplc_sim_trap_address st a).2.cache_index = st.cache_index ∧
    (iplc_sim_trap_address st a).2.cache_blockoffsetbits =
      st.cache_blockoffsetbits := by
  rw [trap_eq_coldMiss st a i h]
  exact ⟨rfl, rfl, rfl, rfl⟩

theorem trap_fullMiss_parts (st : CacheState) (a : Nat)
    (h : scanWays (trapTag st a) 0
      (st.sets.getD (trapIndex st a) default).lines = .fullMiss) :
    (iplc_sim_trap_address st a).1 = false ∧
    (iplc_sim_trap_address st a).2.sets = st.sets.set (trapIndex st a)
      (iplc_sim_LRU_replace_on_miss
        (st.sets.getD (trapIndex st a) default) none (trapTag st a)) ∧
    (iplc_sim_trap_address st a).2.cache_index = st.cache_index ∧
    (iplc_sim_trap_address st a).2.cache_blockoffsetbits =
      st.cache_blockoffsetbits := by
  rw [trap_eq_fullMiss st a h]
  exact ⟨rfl, rfl, rfl, rfl⟩

/-- **C5** Cold-fill and eviction order.  Probing `k + 1` addresses with
pairwise distinct tags that all map to the same set of a fresh `k`-way cache:
each of the first `k` probes misses and installs its tag into way `j`, which
becomes the MRU of the set's chain; after the `k` fill probes the first tag
sits at the LRU end (way `0` is the tail); the `(k+1)`-th probe misses and
immediately afterwards the first tag is absent from the set. -/
theorem cold_fill_and_eviction (I B k : Nat) (hk : 1 ≤ k) (addrs : List Nat)
    (hlen : addrs.length = k + 1)
    (hsame : ∀ a ∈ addrs, trapIndex (mkCacheState I B k) a =
      trapIndex (mkCacheState I B k) (addrs.getD 0 0))
    (htags : (addrs.map (trapTag (mkCacheState I B k))).Nodup) :
    (∀ j < k,
      (iplc_sim_trap_address (probeList (mkCacheState I B k) (addrs.take j))
        (addrs.getD j 0)).1 = false ∧
      (getLine ((probeList (mkCacheState I B k) (addrs.take (j + 1))).sets.getD
        (trapIndex (mkCacheState I B k) (addrs.getD 0 0)) default) j).valid
        = true ∧
      (getLine ((probeList (mkCacheState I B k) (addrs.take (j + 1))).sets.getD
        (trapIndex (mkCacheState I B k) (addrs.getD 0 0)) default) j).tag
        = trapTag (mkCacheState I B k) (addrs.getD j 0) ∧
      ((probeList (mkCacheState I B k) (addrs.take (j + 1))).sets.getD
        (trapIndex (mkCacheState I B k) (addrs.getD 0 0)) default).lru_head
        = j) ∧
    ((probeList (mkCacheState I B k) (addrs.take k)).sets.getD
      (trapIndex (mkCacheState I B k) (addrs.getD 0 0)) default).lru_tail
      = 0 ∧
    (getLine ((probeList (mkCacheState I B k) (addrs.take k)).sets.getD
      (trapIndex (mkCacheState I B k) (addrs.getD 0 0)) default) 0).tag =
      trapTag (mkCacheState I B k) (addrs.getD 0 0) ∧
    (iplc_sim_trap_address (probeList (mkCacheState I B k) (addrs.take k))
      (addrs.getD k 0)).1 = false ∧
    (∀ i < k,
      ¬((getLine ((probeList (mkCacheState I B k) addrs).sets.getD
          (trapIndex (mkCacheState I B k) (addrs.getD 0 0)) default) i).valid
          = true ∧
        (getLine ((probeList (mkCacheState I B k) addrs).sets.getD
          (trapIndex (mkCacheState I B k) (addrs.getD 0 0)) default) i).tag =
          trapTag (mkCacheState I B k) (addrs.getD 0 0))) := by
  have hidxlt : trapIndex (mkCacheState I B k) (addrs.getD 0 0) < 1 <<< I :=
    trapIndex_lt (mkCacheState I B k) (addrs.getD 0 0)
  have hmemD : ∀ j, j < addrs.length → addrs.getD j 0 ∈ addrs := by
    intro j hj
    rw [List.getD_eq_getElem _ _ hj]
    exact List.getElem_mem hj
  have hT : ∀ m n, m < n → n < addrs.length →
      trapTag (mkCacheState I B k) (addrs.getD m 0) ≠
        trapTag (mkCacheState I B k) (addrs.getD n 0) := by
    intro m n hmn hn
    have hm : m < addrs.length := by omega
    rw [List.getD_eq_getElem _ _ hm, List.getD_eq_getElem _ _ hn]
    have := List.pairwise_iff_getElem.mp htags m n (by simpa using hm)
      (by simpa using hn) hmn
    simpa using this
  have hstep : ∀ j, j < addrs.length →
      probeList (mkCacheState I B k) (addrs.take (j + 1)) =
        (iplc_sim_trap_address
          (probeList (mkCacheState I B k) (addrs.take j))
          (addrs.getD j 0)).2 := by
    intro j hj
    rw [probeList, probeList, List.take_succ, List.getElem?_eq_getElem hj,
      List.foldl_append, List.getD_eq_getElem _ _ hj]
    rfl
  have main : ∀ j, j ≤ k →
      (probeList (mkCacheState I B k) (addrs.take j)).cache_index = I ∧
      (probeList (mkCacheState I B k) (addrs.take j)).cache_blockoffsetbits
        = B ∧
      (probeList (mkCacheState I B k) (addrs.take j)).sets.length = 1 <<< I ∧
      (probeList (mkCacheState I B k) (addrs.take j)).sets.getD
          (trapIndex (mkCacheState I B k) (addrs.getD 0 0)) default =
        coldSet k j
          (fun m => trapTag (mkCacheState I B k) (addrs.getD m 0)) := by
    intro j
    induction j with
    | zero =>
      intro _
      refine ⟨rfl, rfl, by simp [mkCacheState, probeList], ?_⟩
      rw [show addrs.take 0 = [] from rfl,
        show probeList (mkCacheState I B k) [] = mkCacheState I B k from rfl]
      have hl : trapIndex (mkCacheState I B k) (addrs.getD 0 0) <
          (mkCacheState I B k).sets.length := by
        simpa [mkCacheState] using hidxlt
      rw [show (mkCacheState I B k).sets =
          List.replicate (1 <<< I) (initSet k) from rfl,
        List.getD_eq_getElem _ _ (by simpa [mkCacheState] using hl),
        List.getElem_replicate]
      exact (coldSet_zero k _).symm
    | succ j ih =>
      intro hjk
      obtain ⟨hci, hcb, hsl, hgd⟩ := ih (by omega)
      have hjlen : j < addrs.length := by omega
      have hix : trapIndex (probeList (mkCacheState I B k) (addrs.take j))
          (addrs.getD j 0) =
          trapIndex (mkCacheState I B k) (addrs.getD 0 0) := by
        rw [trapIndex_congr (mkCacheState I B k) _ _ (by rw [hci]; rfl)
          (by rw [hcb]; rfl)]
        exact hsame _ (hmemD j hjlen)
      have htg : trapTag (probeList (mkCacheState I B k) (addrs.take j))
          (addrs.getD j 0) =
          trapTag (mkCacheState I B k) (addrs.getD j 0) :=
        trapTag_congr (mkCacheState I B k) _ _ (by rw [hci]; rfl) (by rw [hcb]; rfl)
      have hscan : scanWays
          (trapTag (probeList (mkCacheState I B k) (addrs.take j))
            (addrs.getD j 0)) 0
          ((probeList (mkCacheState I B k) (addrs.take j)).sets.getD
            (trapIndex (probeList (mkCacheState I B k) (addrs.take j))
              (addrs.getD j 0)) default).lines = .coldMiss j := by
        rw [htg, hix, hgd]
        exact coldSet_scan k j _ (by omega)
          (fun m hm => hT m j hm hjlen)
      obtain ⟨-, hsets, hci', hcb'⟩ := trap_coldMiss_parts _ _ _ hscan
      refine ⟨?_, ?_, ?_, ?_⟩
      · rw [hstep j hjlen, hci', hci]
      · rw [hstep j hjlen, hcb', hcb]
      · rw [hstep j hjlen, hsets]
        simpa using hsl
      · rw [hstep j hjlen, hsets, hix, htg, hgd,
          getD_set_self _ _ _ (by rw [hsl]; exact hidxlt)]
        exact coldSet_install k j _ (by omega)
  -- the scan outcome of the j-th probe, for the conclusions
  have probeScan : ∀ j, j < k →
      scanWays (trapTag (probeList (mkCacheState I B k) (addrs.take j))
          (addrs.getD j 0)) 0
        ((probeList (mkCacheState I B k) (addrs.take j)).sets.getD
          (trapIndex (probeList (mkCacheState I B k) (addrs.take j))
            (addrs.getD j 0)) default).lines = .coldMiss j := by
    intro j hjk
    obtain ⟨hci, hcb, hsl, hgd⟩ := main j (by omega)
    have hjlen : j < addrs.length := by omega
    rw [trapTag_congr (mkCacheState I B k) _ _ (by rw [hci]; rfl) (by rw [hcb]; rfl),
      trapIndex_congr (mkCacheState I B k) _ _ (by rw [hci]; rfl) (by rw [hcb]; rfl),
      hsame _ (hmemD j hjlen), hgd]
    exact coldSet_scan k j _ (by omega) (fun m hm => hT m j hm hjlen)
  obtain ⟨hcik, hcbk, hslk, hgdk⟩ := main k (le_refl k)
  have hklen : k < addrs.length := by omega
  have hixk : trapIndex (probeList (mkCacheState I B k) (addrs.take k))
      (addrs.getD k 0) = trapIndex (mkCacheState I B k) (addrs.getD 0 0) := by
    rw [trapIndex_congr (mkCacheState I B k) _ _ (by rw [hcik]; rfl) (by rw [hcbk]; rfl)]
    exact hsame _ (hmemD k hklen)
  have htgk : trapTag (probeList (mkCacheState I B k) (addrs.take k))
      (addrs.getD k 0) = trapTag (mkCacheState I B k) (addrs.getD k 0) :=
    trapTag_congr (mkCacheState I B k) _ _ (by rw [hcik]; rfl) (by rw [hcbk]; rfl)
  have hscank : scanWays
      (trapTag (probeList (mkCacheState I B k) (addrs.take k))
        (addrs.getD k 0)) 0
      ((probeList (mkCacheState I B k) (addrs.take k)).sets.getD
        (trapIndex (probeList (mkCacheState I B k) (addrs.take k))
          (addrs.getD k 0)) default).lines = .fullMiss := by
    rw [htgk, hixk, hgdk]
    exact coldSet_full_scan k _ _ (fun m hm => hT m k hm hklen)
  obtain ⟨hflagk, hsetsk, -, -⟩ := trap_fullMiss_parts _ _ hscank
  have htake : addrs.take (k + 1) = addrs := by
    rw [← hlen]
    exact List.take_length addrs
  refine ⟨?_, ?_, ?_, hflagk, ?_⟩
  · intro j hjk
    obtain ⟨hcm1, hgd1⟩ :
        (iplc_sim_trap_address
          (probeList (mkCacheState I B k) (addrs.take j))
          (addrs.getD j 0)).1 = false ∧
        (probeList (mkCacheState I B k) (addrs.take (j + 1))).sets.getD
            (trapIndex (mkCacheState I B k) (addrs.getD 0 0)) default =
          coldSet k (j + 1)
            (fun m => trapTag (mkCacheState I B k) (addrs.getD m 0)) :=
      ⟨(trap_coldMiss_parts _ _ _ (probeScan j hjk)).1,
        (main (j + 1) (by omega)).2.2.2⟩
    refine ⟨hcm1, ?_, ?_, ?_⟩
    · rw [hgd1, getLine_coldSet _ _ _ _ hjk, if_pos (by omega)]
    · rw [hgd1, getLine_coldSet _ _ _ _ hjk, if_pos (by omega)]
    · rw [hgd1, coldSet_lru_head, if_neg (by omega)]
      omega
  · rw [hgdk, coldSet_lru_tail]
  · rw [hgdk, getLine_coldSet _ _ _ _ (by omega), if_pos (by omega)]
  · intro i hik
    have hfin : probeList (mkCacheState I B k) addrs =
        (iplc_sim_trap_address
          (probeList (mkCacheState I B k) (addrs.take k))
          (addrs.getD k 0)).2 := by
      conv_lhs => rw [← htake]
      exact hstep k hklen
    have hsetsFin : (probeList (mkCacheState I B k) addrs).sets.getD
        (trapIndex (mkCacheState I B k) (addrs.getD 0 0)) default =
        iplc_sim_LRU_replace_on_miss
          (coldSet k k
            (fun m => trapTag (mkCacheState I B k) (addrs.getD m 0)))
          none (trapTag (mkCacheState I B k) (addrs.getD k 0)) := by
      rw [hfin, hsetsk, hixk, htgk, hgdk,
        getD_set_self _ _ _ (by rw [hslk]; exact hidxlt)]
    have hvt := coldSet_evict_vt k
      (fun m => trapTag (mkCacheState I B k) (addrs.getD m 0))
      (trapTag (mkCacheState I B k) (addrs.getD k 0)) hk i hik
    rintro ⟨-, htag0⟩
    rw [hsetsFin] at htag0
    have htagv := congrArg Prod.snd hvt
    by_cases h0 : i = 0
    · rw [if_pos h0] at htagv
      have : (getLine (iplc_sim_LRU_replace_on_miss
          (coldSet k k
            (fun m => trapTag (mkCacheState I B k) (addrs.getD m 0)))
          none (trapTag (mkCacheState I B k) (addrs.getD k 0))) i).tag =
          trapTag (mkCacheState I B k) (addrs.getD k 0) := htagv
      rw [this] at htag0
      exact hT 0 k (by omega) hklen htag0.symm
    · rw [if_neg h0] at htagv
      have : (getLine (iplc_sim_LRU_replace_on_miss
          (coldSet k k
            (fun m => trapTag (mkCacheState I B k) (addrs.getD m 0)))
          none (trapTag (mkCacheState I B k) (addrs.getD k 0))) i).tag =
          trapTag (mkCacheState I B k) (addrs.getD i 0) := htagv
      rw [this] at htag0
      exact hT 0 i (by omega) (by omega) htag0.symm

/-- Witness for `cold_fill_and_eviction`: a fresh 2-way cache probed with
addresses `0x10`, `0x20`, `0x30` (same index, tags 1, 2, 3); the third
probe misses. -/
theorem cold_fill_and_eviction_witness :
    (iplc_sim_trap_address
      (probeList (mkCacheState 2 2 2) ([16, 32, 48].take 2))
      ([16, 32, 48].getD 2 0)).1 = false :=
  (cold_fill_and_eviction 2 2 2 (by norm_num) [16, 32, 48] (by rfl)
    (by decide) (by decide)).2.2.2.1

/-! ## The pipeline (`enum instruction_type`, `pipeline_t`,
`iplc_sim_push_pipeline_stage` and the `iplc_sim_process_pipeline_*`
functions) -/

/-- `enum instruction_type` from the C source. -/
inductive InstructionType where
  | NOP | RTYPE | LW | SW | BRANCH | JUMP | JAL | SYSCALL
deriving Repr, DecidableEq

/-- One `pipeline_t` stage slot.  Of the C union payload the simulator core
only ever reads `stage.lw.data_address` / `stage.sw.data_address` (which
share the union's first word); the register and mnemonic payload fields are
write-only and are not modelled.  `bzero` of a slot corresponds to
`⟨.NOP, 0, 0⟩`. -/
structure PipelineSlot where
  itype : InstructionType
  instruction_address : Nat
  data_address : Nat
deriving Repr, DecidableEq

/-- The zeroed stage slot produced by `bzero` (itype 0 is NOP). -/
def nopSlot : PipelineSlot := ⟨.NOP, 0, 0⟩

/-- `pipeline[MAX_STAGES]` with the stage constants FETCH, DECODE, ALU, MEM,
WRITEBACK as named fields. -/
structure Pipeline where
  fetch : PipelineSlot
  decode : PipelineSlot
  alu : PipelineSlot
  mem : PipelineSlot
  wb : PipelineSlot
deriving Repr, DecidableEq

def initPipeline : Pipeline := ⟨nopSlot, nopSlot, nopSlot, nopSlot, nopSlot⟩

/-- The whole simulator state: the cache globals plus the pipeline globals
(`pipeline`, `pipeline_cycles`, `instruction_count`, `branch_predict_taken`,
`branch_count`, `correct_branch_predictions`). -/
structure SimState where
  cache : CacheState
  pipeline : Pipeline
  pipeline_cycles : Nat
  instruction_count : Nat
  branch_predict_taken : Nat
  branch_count : Nat
  correct_branch_predictions : Nat
deriving Repr, DecidableEq

/-- Step 1 of `iplc_sim_push_pipeline_stage`: count the WRITEBACK stage as
retired when its instruction address is nonzero. -/
def retire_step (st : SimState) : SimState :=
  if st.pipeline.wb.instruction_address ≠ 0 then
    { st with instruction_count := st.instruction_count + 1 }
  else st

/-- The `branch_taken` test of step 2, as the C `int` 0/1:
`(pipeline[FETCH].instruction_address != pipeline[DECODE].instruction_address
+ 4) && (pipeline[FETCH].itype != NOP)`, the addition being 32-bit. -/
def branch_taken (st : SimState) : Nat :=
  if st.pipeline.fetch.instruction_address ≠
      (st.pipeline.decode.instruction_address + 4) % 2 ^ 32 ∧
      st.pipeline.fetch.itype ≠ .NOP then 1 else 0

/-- Step 2 of `iplc_sim_push_pipeline_stage`: branch-prediction resolution.
Returns the `cycle_count` together with the updated state. -/
def branch_step (st : SimState) : Nat × SimState :=
  if st.pipeline.decode.itype = .BRANCH then
    if branch_taken st = st.branch_predict_taken then
      (1, { st with
        correct_branch_predictions := st.correct_branch_predictions + 1 })
    else (2, st)
  else (1, st)

/-- Steps 3–4 of `iplc_sim_push_pipeline_stage`: on LW/SW in MEM, probe the
cache with the stage's data address; a miss overwrites `cycle_count` with
`CACHE_MISS_DELAY`. -/
def mem_step (st : SimState) (cycle_count : Nat) : Nat × SimState :=
  match st.pipeline.mem.itype with
  | .LW =>
    let r := iplc_sim_trap_address st.cache st.pipeline.mem.data_address
    (if r.1 then cycle_count else CACHE_MISS_DELAY, { st with cache := r.2 })
  | .SW =>
    let r := iplc_sim_trap_address st.cache st.pipeline.mem.data_address
    (if r.1 then cycle_count else CACHE_MISS_DELAY, { st with cache := r.2 })
  | _ => (cycle_count, st)

/-- Step 6: WRITEBACK ← MEM ← ALU ← DECODE ← FETCH ← zeroed NOP. -/
def shiftPipeline (p : Pipeline) : Pipeline :=
  ⟨nopSlot, p.fetch, p.decode, p.alu, p.mem⟩

/-- `iplc_sim_push_pipeline_stage`. -/
def iplc_sim_push_pipeline_stage (st : SimState) : SimState :=
  let st1 := retire_step st
  let r2 := branch_step st1
  let r3 := mem_step r2.2 r2.1
  let st4 := { r3.2 with pipeline_cycles := r3.2.pipeline_cycles + r3.1 }
  { st4 with pipeline := shiftPipeline st4.pipeline }

/-- `iplc_sim_process_pipeline_nop`: only the push; FETCH stays zeroed. -/
def iplc_sim_process_pipeline_nop (st : SimState) : SimState :=
  iplc_sim_push_pipeline_stage st

def iplc_sim_process_pipeline_rtype (st : SimState) (iaddr : Nat) : SimState :=
  let st1 := iplc_sim_push_pipeline_stage st
  { st1 with pipeline := { st1.pipeline with fetch :=
      { st1.pipeline.fetch with
        itype := InstructionType.RTYPE
        instruction_address := iaddr } } }

def iplc_sim_process_pipeline_lw (st : SimState) (iaddr daddr : Nat) :
    SimState :=
  let st1 := iplc_sim_push_pipeline_stage st
  { st1 with pipeline := { st1.pipeline with fetch :=
      { itype := InstructionType.LW, instruction_address := iaddr, data_address := daddr } } }

def iplc_sim_process_pipeline_sw (st : SimState) (iaddr daddr : Nat) :
    SimState :=
  let st1 := iplc_sim_push_pipeline_stage st
  { st1 with pipeline := { st1.pipeline with fetch :=
      { itype := InstructionType.SW, instruction_address := iaddr, data_address := daddr } } }

/-- `iplc_sim_process_pipeline_branch`: push, write the BRANCH descriptor
into FETCH, and `branch_count++`. -/
def iplc_sim_process_pipeline_branch (st : SimState) (iaddr : Nat) : SimState :=
  let st1 := iplc_sim_push_pipeline_stage st
  { st1 with
    pipeline := { st1.pipeline with fetch :=
      { st1.pipeline.fetch with
        itype := InstructionType.BRANCH
        instruction_address := iaddr } }
    branch_count := st1.branch_count + 1 }

def iplc_sim_process_pipeline_jump (st : SimState) (iaddr : Nat)
    (isJal : Bool) : SimState :=
  let st1 := iplc_sim_push_pipeline_stage st
  { st1 with pipeline := { st1.pipeline with fetch :=
      { st1.pipeline.fetch with
        itype := if isJal then InstructionType.JAL else InstructionType.JUMP
        instruction_address := iaddr } } }

def iplc_sim_process_pipeline_syscall (st : SimState) (iaddr : Nat) :
    SimState :=
  let st1 := iplc_sim_push_pipeline_stage st
  { st1 with pipeline := { st1.pipeline with fetch :=
      { st1.pipeline.fetch with
        itype := InstructionType.SYSCALL
        instruction_address := iaddr } } }

/-- One front-end operation on the simulator: either a bare pipeline advance
(fetch-miss bubble or drain iteration) or one of the
`iplc_sim_process_pipeline_*` calls. -/
inductive SimOp where
  | advance
  | rtype (iaddr : Nat)
  | lw (iaddr daddr : Nat)
  | sw (iaddr daddr : Nat)
  | branch (iaddr : Nat)
  | jump (iaddr : Nat) (isJal : Bool)
  | syscall (iaddr : Nat)
  | nop
deriving Repr, DecidableEq

def runOp (st : SimState) : SimOp → SimState
  | .advance => iplc_sim_push_pipeline_stage st
  | .rtype iaddr => iplc_sim_process_pipeline_rtype st iaddr
  | .lw iaddr daddr => iplc_sim_process_pipeline_lw st iaddr daddr
  | .sw iaddr daddr => iplc_sim_process_pipeline_sw st iaddr daddr
  | .branch iaddr => iplc_sim_process_pipeline_branch st iaddr
  | .jump iaddr isJal => iplc_sim_process_pipeline_jump st iaddr isJal
  | .syscall iaddr => iplc_sim_process_pipeline_syscall st iaddr
  | .nop => iplc_sim_process_pipeline_nop st

def runOps (st : SimState) (ops : List SimOp) : SimState :=
  ops.foldl runOp st

/-- Structural floor base-2 logarithm (the fuel argument makes it reduce in
the kernel; `fuel = n` always suffices). -/
def floorLog2Aux : Nat → Nat → Nat
  | 0, _ => 0
  | fuel + 1, n => if 2 ≤ n then floorLog2Aux fuel (n / 2) + 1 else 0

/-- The block-offset width computed by `iplc_sim_init`.  The C computes
`(int) rint(log(blocksize * 4) / log(2))`; for the configuration contract's
power-of-two block sizes the floating-point computation is exact and equals
the integer base-2 logarithm of `blocksize * 4`. -/
def cache_blockoffsetbits_of (blocksize : Nat) : Nat :=
  floorLog2Aux (blocksize * 4) (blocksize * 4)

/-- `iplc_sim_init`: compute the block-offset width and the cache-size
metric, reject oversized configurations (`exit(-1)`, modelled as `none`),
otherwise allocate `2^index` cold sets and an all-NOP pipeline. -/
def iplc_sim_init (index blocksize assoc bpt : Nat) : Option SimState :=
  let boBits := cache_blockoffsetbits_of blocksize
  let cache_size := assoc * (1 <<< index) *
    (32 * blocksize + 33 - index - boBits)
  if cache_size > MAX_CACHE_SIZE then none
  else some
    { cache := mkCacheState index boBits assoc
      pipeline := initPipeline
      pipeline_cycles := 0
      instruction_count := 0
      branch_predict_taken := bpt
      branch_count := 0
      correct_branch_predictions := 0 }

/-- `n` successive bare pushes (the fetch-miss bubble loop). -/
def pushRepeat : Nat → SimState → SimState
  | 0, st => st
  | n + 1, st => pushRepeat n (iplc_sim_push_pipeline_stage st)

/-- `iplc_sim_parse_instruction` specialised to a `<hex_iaddr> nop` trace
line: probe the instruction address; on a miss run the
`CACHE_MISS_DELAY - 1` bubble pushes; then `iplc_sim_process_pipeline_nop`. -/
def iplc_sim_parse_nop_line (st : SimState) (iaddr : Nat) : SimState :=
  let r := iplc_sim_trap_address st.cache iaddr
  let st1 := { st with cache := r.2 }
  let st2 := if r.1 then st1 else pushRepeat (CACHE_MISS_DELAY - 1) st1
  iplc_sim_process_pipeline_nop st2

def allNop (p : Pipeline) : Bool :=
  p.fetch.itype = .NOP ∧ p.decode.itype = .NOP ∧ p.alu.itype = .NOP ∧
    p.mem.itype = .NOP ∧ p.wb.itype = .NOP

/-- The drain loop of `iplc_sim_finalize` with explicit fuel; five pushes
always reach the all-NOP pipeline, so fuel `MAX_STAGES` realises the
unbounded C `while` loop. -/
def drainFuel : Nat → SimState → SimState
  | 0, st => st
  | n + 1, st =>
    if allNop st.pipeline then st
    else drainFuel n (iplc_sim_push_pipeline_stage st)

/-- The state-relevant part of `iplc_sim_finalize` (the printing is pure
output): finish processing all instructions in the pipeline. -/
def iplc_sim_finalize (st : SimState) : SimState :=
  drainFuel 5 st

/-! ## Normal form of one pipeline advance -/

theorem retire_step_eq (st : SimState) :
    retire_step st = { st with instruction_count := st.instruction_count +
      (if st.pipeline.wb.instruction_address ≠ 0 then 1 else 0) } := by
  unfold retire_step
  split
  · rfl
  · simp

theorem branch_step_eq (st : SimState) :
    branch_step st =
      ((if st.pipeline.decode.itype = .BRANCH ∧
          branch_taken st ≠ st.branch_predict_taken then 2 else 1),
        { st with correct_branch_predictions :=
            st.correct_branch_predictions +
              (if st.pipeline.decode.itype = .BRANCH ∧
                branch_taken st = st.branch_predict_taken then 1 else 0) }) := by
  unfold branch_step
  by_cases h1 : st.pipeline.decode.itype = .BRANCH
  · by_cases h2 : branch_taken st = st.branch_predict_taken <;>
      simp [h1, h2]
  · simp [h1]

theorem mem_step_eq (st : SimState) (c : Nat) :
    mem_step st c =
      ((if (st.pipeline.mem.itype = .LW ∨ st.pipeline.mem.itype = .SW) ∧
          (iplc_sim_trap_address st.cache
            st.pipeline.mem.data_address).1 = false
        then CACHE_MISS_DELAY else c),
        { st with cache :=
            if st.pipeline.mem.itype = .LW ∨ st.pipeline.mem.itype = .SW then
              (iplc_sim_trap_address st.cache
                st.pipeline.mem.data_address).2
            else st.cache }) := by
  cases h : st.pipeline.mem.itype <;>
    cases hr : (iplc_sim_trap_address st.cache
      st.pipeline.mem.data_address).1 <;>
    simp [mem_step, h, hr]

/-- Normal form of `iplc_sim_push_pipeline_stage`: all counter increments and
the stage shift at once. -/
theorem push_eq (st : SimState) :
    iplc_sim_push_pipeline_stage st =
      { st with
        cache :=
          if st.pipeline.mem.itype = .LW ∨ st.pipeline.mem.itype = .SW then
            (iplc_sim_trap_address st.cache st.pipeline.mem.data_address).2
          else st.cache
        pipeline := shiftPipeline st.pipeline
        pipeline_cycles := st.pipeline_cycles +
          (if (st.pipeline.mem.itype = .LW ∨ st.pipeline.mem.itype = .SW) ∧
              (iplc_sim_trap_address st.cache
                st.pipeline.mem.data_address).1 = false
            then CACHE_MISS_DELAY
            else if st.pipeline.decode.itype = .BRANCH ∧
                branch_taken st ≠ st.branch_predict_taken then 2 else 1)
        instruction_count := st.instruction_count +
          (if st.pipeline.wb.instruction_address ≠ 0 then 1 else 0)
        correct_branch_predictions := st.correct_branch_predictions +
          (if st.pipeline.decode.itype = .BRANCH ∧
              branch_taken st = st.branch_predict_taken then 1 else 0) } := by
  unfold iplc_sim_push_pipeline_stage
  simp only [retire_step_eq, branch_step_eq, mem_step_eq]
  simp [branch_taken]

/-- **C2** Cycle accounting of one pipeline advance: 10 cycles when MEM
holds an LW/SW whose data address misses the cache (dominating and not
stacking with a mispredict), otherwise 2 on a BRANCH mispredict in DECODE,
otherwise 1; and on a correct prediction `correct_branch_predictions` is
incremented while the charge stays at the baseline.  `taken` is the claim's
formula; the hypothesis keeps the 32-bit `DECODE + 4` addition exact. -/
theorem push_cycle_accounting (st : SimState)
    (haddr : st.pipeline.decode.instruction_address + 4 < 2 ^ 32) :
    (iplc_sim_push_pipeline_stage st).pipeline_cycles = st.pipeline_cycles +
      (if (st.pipeline.mem.itype = .LW ∨ st.pipeline.mem.itype = .SW) ∧
          (iplc_sim_trap_address st.cache
            st.pipeline.mem.data_address).1 = false
        then CACHE_MISS_DELAY
        else if st.pipeline.decode.itype = .BRANCH ∧
            (if st.pipeline.fetch.instruction_address ≠
                  st.pipeline.decode.instruction_address + 4 ∧
                st.pipeline.fetch.itype ≠ .NOP then 1 else 0) ≠
              st.branch_predict_taken
          then 2 else 1) ∧
    (iplc_sim_push_pipeline_stage st).correct_branch_predictions =
      st.correct_branch_predictions +
        (if st.pipeline.decode.itype = .BRANCH ∧
            (if st.pipeline.fetch.instruction_address ≠
                  st.pipeline.decode.instruction_address + 4 ∧
                st.pipeline.fetch.itype ≠ .NOP then 1 else 0) =
              st.branch_predict_taken
          then 1 else 0) := by
  have ht : branch_taken st =
      (if st.pipeline.fetch.instruction_address ≠
            st.pipeline.decode.instruction_address + 4 ∧
          st.pipeline.fetch.itype ≠ .NOP then 1 else 0) := by
    unfold branch_taken
    rw [Nat.mod_eq_of_lt haddr]
  rw [push_eq]
  rw [ht]
  exact ⟨rfl, rfl⟩

/-- Witness for `push_cycle_accounting` at the freshly initialised simulator
state (all-NOP pipeline): the advance charges the baseline single cycle. -/
theorem push_cycle_accounting_witness :
    (iplc_sim_push_pipeline_stage
        { cache := mkCacheState 2 2 1, pipeline := initPipeline
          pipeline_cycles := 0, instruction_count := 0
          branch_predict_taken := 0, branch_count := 0
          correct_branch_predictions := 0 }).pipeline_cycles =
      ({ cache := mkCacheState 2 2 1, pipeline := initPipeline
         pipeline_cycles := 0, instruction_count := 0
         branch_predict_taken := 0, branch_count := 0
         correct_branch_predictions := 0 } : SimState).pipeline_cycles +
      (if (({ cache := mkCacheState 2 2 1, pipeline := initPipeline
              pipeline_cycles := 0, instruction_count := 0
              branch_predict_taken := 0, branch_count := 0
              correct_branch_predictions := 0 } : SimState).pipeline.mem.itype
              = .LW ∨
            (({ cache := mkCacheState 2 2 1, pipeline := initPipeline
                pipeline_cycles := 0, instruction_count := 0
                branch_predict_taken := 0, branch_count := 0
                correct_branch_predictions := 0 } : SimState)).pipeline.mem.itype
              = .SW) ∧
          (iplc_sim_trap_address
            ({ cache := mkCacheState 2 2 1, pipeline := initPipeline
               pipeline_cycles := 0, instruction_count := 0
               branch_predict_taken := 0, branch_count := 0
               correct_branch_predictions := 0 } : SimState).cache
            ({ cache := mkCacheState 2 2 1, pipeline := initPipeline
               pipeline_cycles := 0, instruction_count := 0
               branch_predict_taken := 0, branch_count := 0
               correct_branch_predictions := 0 } : SimState).pipeline.mem.data_address).1
            = false
        then CACHE_MISS_DELAY
        else if ({ cache := mkCacheState 2 2 1, pipeline := initPipeline
                   pipeline_cycles := 0, instruction_count := 0
                   branch_predict_taken := 0, branch_count := 0
                   correct_branch_predictions := 0 } : SimState).pipeline.decode.itype
              = .BRANCH ∧
            (if ({ cache := mkCacheState 2 2 1, pipeline := initPipeline
                   pipeline_cycles := 0, instruction_count := 0
                   branch_predict_taken := 0, branch_count := 0
                   correct_branch_predictions := 0 } : SimState).pipeline.fetch.instruction_address ≠
                  ({ cache := mkCacheState 2 2 1, pipeline := initPipeline
                     pipeline_cycles := 0, instruction_count := 0
                     branch_predict_taken := 0, branch_count := 0
                     correct_branch_predictions := 0 } : SimState).pipeline.decode.instruction_address + 4 ∧
                ({ cache := mkCacheState 2 2 1, pipeline := initPipeline
                   pipeline_cycles := 0, instruction_count := 0
                   branch_predict_taken := 0, branch_count := 0
                   correct_branch_predictions := 0 } : SimState).pipeline.fetch.itype ≠ .NOP
              then 1 else 0) ≠
              ({ cache := mkCacheState 2 2 1, pipeline := initPipeline
                 pipeline_cycles := 0, instruction_count := 0
                 branch_predict_taken := 0, branch_count := 0
                 correct_branch_predictions := 0 } : SimState).branch_predict_taken
          then 2 else 1) :=
  (push_cycle_accounting _ (by decide)).1

/-! ## Branch accounting (claim C7) -/

/-- Number of BRANCH descriptors pushed by a front-end operation list. -/
def countBranchOps (ops : List SimOp) : Nat :=
  (ops.filter fun op => match op with
    | .branch _ => true
    | _ => false).length

/-- Strengthened invariant: the correct predictions plus the BRANCH
descriptors still in FETCH or DECODE never exceed the branches pushed. -/
def branchInv (st : SimState) : Prop :=
  st.correct_branch_predictions +
      (if st.pipeline.fetch.itype = .BRANCH then 1 else 0) +
      (if st.pipeline.decode.itype = .BRANCH then 1 else 0) ≤
    st.branch_count

theorem push_branch_count (st : SimState) :
    (iplc_sim_push_pipeline_stage st).branch_count = st.branch_count := by
  rw [push_eq]

theorem push_branchInv (st : SimState) (h : branchInv st) :
    branchInv (iplc_sim_push_pipeline_stage st) := by
  unfold branchInv at h ⊢
  have gcbp : (iplc_sim_push_pipeline_stage st).correct_branch_predictions =
      st.correct_branch_predictions +
        (if st.pipeline.decode.itype = .BRANCH ∧
            branch_taken st = st.branch_predict_taken then 1 else 0) := by
    rw [push_eq]
  have gfetch : (iplc_sim_push_pipeline_stage st).pipeline.fetch = nopSlot := by
    rw [push_eq]; rfl
  have gdecode : (iplc_sim_push_pipeline_stage st).pipeline.decode =
      st.pipeline.fetch := by
    rw [push_eq]; rfl
  have gbc : (iplc_sim_push_pipeline_stage st).branch_count =
      st.branch_count := push_branch_count st
  rw [gcbp, gfetch, gdecode, gbc,
    show (if (nopSlot).itype = InstructionType.BRANCH then 1 else 0) = 0
      from rfl]
  have hA : (if st.pipeline.decode.itype = .BRANCH ∧
      branch_taken st = st.branch_predict_taken then 1 else 0) ≤
      (if st.pipeline.decode.itype = .BRANCH then 1 else 0) := by
    by_cases hd : st.pipeline.decode.itype = .BRANCH
    · simp [hd]
      split <;> omega
    · simp [hd]
  omega

theorem branchInv_setFetch (st : SimState) (slot : PipelineSlot)
    (h : branchInv st) (hslot : slot.itype ≠ .BRANCH) :
    branchInv { st with pipeline := { st.pipeline with fetch := slot } } := by
  unfold branchInv at h ⊢
  simp only [if_neg hslot]
  omega

theorem branchInv_setFetch_branch (st : SimState) (slot : PipelineSlot)
    (h : branchInv st) :
    branchInv { st with
      pipeline := { st.pipeline with fetch := slot }
      branch_count := st.branch_count + 1 } := by
  unfold branchInv at h ⊢
  simp only
  have : (if slot.itype = InstructionType.BRANCH then 1 else 0) ≤ 1 := by
    split <;> omega
  omega

theorem runOp_branchInv (st : SimState) (op : SimOp) (h : branchInv st) :
    branchInv (runOp st op) ∧
      (runOp st op).branch_count = st.branch_count +
        (match op with | .branch _ => 1 | _ => 0) := by
  have hpush := push_branchInv st h
  have hbc := push_branch_count st
  cases op with
  | advance => exact ⟨hpush, by simpa using hbc⟩
  | nop =>
    exact ⟨hpush, by simpa [runOp, iplc_sim_process_pipeline_nop] using hbc⟩
  | rtype iaddr =>
    refine ⟨?_, by simpa [runOp, iplc_sim_process_pipeline_rtype] using hbc⟩
    simp only [runOp, iplc_sim_process_pipeline_rtype]
    exact branchInv_setFetch _ _ hpush (by simp)
  | lw iaddr daddr =>
    refine ⟨?_, by simpa [runOp, iplc_sim_process_pipeline_lw] using hbc⟩
    simp only [runOp, iplc_sim_process_pipeline_lw]
    exact branchInv_setFetch _ _ hpush (by simp)
  | sw iaddr daddr =>
    refine ⟨?_, by simpa [runOp, iplc_sim_process_pipeline_sw] using hbc⟩
    simp only [runOp, iplc_sim_process_pipeline_sw]
    exact branchInv_setFetch _ _ hpush (by simp)
  | branch iaddr =>
    refine ⟨?_, by simpa [runOp, iplc_sim_process_pipeline_branch] using hbc⟩
    simp only [runOp, iplc_sim_process_pipeline_branch]
    exact branchInv_setFetch_branch _ _ hpush
  | jump iaddr isJal =>
    refine ⟨?_, by simpa [runOp, iplc_sim_process_pipeline_jump] using hbc⟩
    simp only [runOp, iplc_sim_process_pipeline_jump]
    refine branchInv_setFetch _ _ hpush ?_
    cases isJal <;> simp
  | syscall iaddr =>
    refine ⟨?_, by simpa [runOp, iplc_sim_process_pipeline_syscall] using hbc⟩
    simp only [runOp, iplc_sim_process_pipeline_syscall]
    exact branchInv_setFetch _ _ hpush (by simp)

/-- **C7** After any sequence of front-end operations from an initial state
with an all-NOP pipeline and zeroed branch counters, `branch_count` equals
the number of BRANCH descriptors pushed, and
`correct_branch_predictions ≤ branch_count`. -/
theorem branch_accounting (st0 : SimState) (ops : List SimOp)
    (hpipe : st0.pipeline = initPipeline)
    (hbc : st0.branch_count = 0)
    (hcbp : st0.correct_branch_predictions = 0) :
    (runOps st0 ops).branch_count = countBranchOps ops ∧
      (runOps st0 ops).correct_branch_predictions ≤
        (runOps st0 ops).branch_count := by
  have h0 : branchInv st0 := by
    unfold branchInv
    rw [hpipe, hbc, hcbp]
    simp [initPipeline, nopSlot]
  have main : ∀ (ops : List SimOp) (st : SimState), branchInv st →
      branchInv (runOps st ops) ∧
        (runOps st ops).branch_count = st.branch_count +
          countBranchOps ops := by
    intro ops
    induction ops with
    | nil => intro st h; exact ⟨h, by simp [runOps, countBranchOps]⟩
    | cons op rest ih =>
      intro st h
      obtain ⟨h1, h2⟩ := runOp_branchInv st op h
      obtain ⟨h3, h4⟩ := ih (runOp st op) h1
      refine ⟨by simpa [runOps] using h3, ?_⟩
      have : runOps st (op :: rest) = runOps (runOp st op) rest := rfl
      rw [this, h4, h2]
      cases op <;> simp [countBranchOps, List.filter] <;> omega
  obtain ⟨hinv, hcount⟩ := main ops st0 h0
  refine ⟨by rw [hcount, hbc]; omega, ?_⟩
  unfold branchInv at hinv
  omega

/-- Witness for `branch_accounting`: one branch push then a drain advance
from the fresh simulator state. -/
theorem branch_accounting_witness :
    (runOps
        { cache := mkCacheState 2 2 1, pipeline := initPipeline
          pipeline_cycles := 0, instruction_count := 0
          branch_predict_taken := 0, branch_count := 0
          correct_branch_predictions := 0 }
        [SimOp.branch 4096, SimOp.advance]).branch_count =
      countBranchOps [SimOp.branch 4096, SimOp.advance] ∧
    (runOps
        { cache := mkCacheState 2 2 1, pipeline := initPipeline
          pipeline_cycles := 0, instruction_count := 0
          branch_predict_taken := 0, branch_count := 0
          correct_branch_predictions := 0 }
        [SimOp.branch 4096, SimOp.advance]).correct_branch_predictions ≤
      (runOps
        { cache := mkCacheState 2 2 1, pipeline := initPipeline
          pipeline_cycles := 0, instruction_count := 0
          branch_predict_taken := 0, branch_count := 0
          correct_branch_predictions := 0 }
        [SimOp.branch 4096, SimOp.advance]).branch_count :=
  branch_accounting _ [SimOp.branch 4096, SimOp.advance] rfl rfl rfl

theorem push_pipeline (st : SimState) :
    (iplc_sim_push_pipeline_stage st).pipeline = shiftPipeline st.pipeline := by
  rw [push_eq]

/-- Five pushes always drain the five-stage pipeline to all-NOP, so the
explicit fuel `MAX_STAGES` in `iplc_sim_finalize` realises the unbounded C
`while` loop. -/
theorem finalize_allNop (st : SimState) :
    allNop ((iplc_sim_finalize st).pipeline) = true := by
  rw [iplc_sim_finalize, drainFuel]
  split
  · assumption
  rw [drainFuel]
  split
  · assumption
  rw [drainFuel]
  split
  · assumption
  rw [drainFuel]
  split
  · assumption
  rw [drainFuel]
  split
  · assumption
  rw [drainFuel, push_pipeline, push_pipeline, push_pipeline, push_pipeline,
    push_pipeline]
  rfl

/-- **C10** Pushing a NOP descriptor is exactly a bare pipeline advance and
leaves FETCH entirely zeroed; the retire check requires a nonzero WRITEBACK
instruction address, so with a zeroed WRITEBACK slot nothing retires, and a
run consisting only of `nop` trace lines never increments
`instruction_count`. -/
theorem nop_push_spec :
    (∀ st : SimState, iplc_sim_process_pipeline_nop st =
      iplc_sim_push_pipeline_stage st) ∧
    (∀ st : SimState,
      (iplc_sim_process_pipeline_nop st).pipeline.fetch = nopSlot) ∧
    (∀ st : SimState, st.pipeline.wb = nopSlot →
      (iplc_sim_push_pipeline_stage st).instruction_count =
        st.instruction_count) ∧
    (∀ (st0 : SimState) (n : Nat), st0.pipeline = initPipeline →
      st0.instruction_count = 0 →
      (runOps st0 (List.replicate n .nop)).instruction_count = 0) := by
  refine ⟨fun st => rfl, ?_, ?_, ?_⟩
  · intro st
    rw [iplc_sim_process_pipeline_nop, push_eq]
    rfl
  · intro st hwb
    rw [push_eq]
    simp [hwb, nopSlot]
  · intro st0 n hpipe hic
    induction n generalizing st0 with
    | zero => simpa [runOps] using hic
    | succ n ih =>
      have h1 : runOps st0 (List.replicate (n + 1) SimOp.nop) =
          runOps (runOp st0 SimOp.nop) (List.replicate n SimOp.nop) := by
        simp [runOps, List.replicate]
      rw [h1]
      apply ih
      · rw [show runOp st0 SimOp.nop = iplc_sim_push_pipeline_stage st0
          from rfl, push_pipeline, hpipe]
        rfl
      · rw [show runOp st0 SimOp.nop = iplc_sim_push_pipeline_stage st0
          from rfl, push_eq]
        simp [hpipe, initPipeline, nopSlot, hic]

/-- Witness for `nop_push_spec`: the zero-WRITEBACK and nop-only-run parts
at the fresh simulator state. -/
theorem nop_push_spec_witness :
    (iplc_sim_push_pipeline_stage
        { cache := mkCacheState 2 2 1, pipeline := initPipeline
          pipeline_cycles := 0, instruction_count := 0
          branch_predict_taken := 0, branch_count := 0
          correct_branch_predictions := 0 }).instruction_count =
      ({ cache := mkCacheState 2 2 1, pipeline := initPipeline
         pipeline_cycles := 0, instruction_count := 0
         branch_predict_taken := 0, branch_count := 0
         correct_branch_predictions := 0 } : SimState).instruction_count ∧
    (runOps
        { cache := mkCacheState 2 2 1, pipeline := initPipeline
          pipeline_cycles := 0, instruction_count := 0
          branch_predict_taken := 0, branch_count := 0
          correct_branch_predictions := 0 }
        (List.replicate 3 SimOp.nop)).instruction_count = 0 :=
  ⟨nop_push_spec.2.2.1 _ rfl, nop_push_spec.2.2.2 _ 3 rfl rfl⟩

/-- **C6** The init size check.  For the configuration contract's
power-of-two block sizes the C's `rint(log(blocksize*4)/log(2))` is the
exact ceiling logarithm; the hypotheses keep the C `int` arithmetic of the
metric exact (no underflow of the tag-width term, no 32-bit overflow). -/
theorem init_size_check (index blocksize assoc bpt k : Nat)
    (hbs : blocksize = 2 ^ k)
    (hunder : index + Nat.clog 2 (blocksize * 4) ≤ 33)
    (hover : assoc * 2 ^ index *
      (32 * blocksize + 33 - index - Nat.clog 2 (blocksize * 4)) < 2 ^ 31) :
    (iplc_sim_init index blocksize assoc bpt = none ↔
      assoc * 2 ^ index *
        (32 * blocksize + 33 - index - Nat.clog 2 (blocksize * 4)) >
        MAX_CACHE_SIZE) ∧
    cache_blockoffsetbits_of blocksize = Nat.clog 2 (blocksize * 4) ∧
    (∀ st : SimState, iplc_sim_init index blocksize assoc bpt = some st →
      st.cache.sets.length = 2 ^ index ∧
      (∀ s ∈ st.cache.sets, s.lines.length = assoc ∧
        ∀ i < assoc, (getLine s i).valid = false) ∧
      st.pipeline = initPipeline) := by
  have hfla : ∀ (m fuel : Nat), 2 ^ m ≤ fuel →
      floorLog2Aux fuel (2 ^ m) = m := by
    intro m
    induction m with
    | zero =>
      intro fuel h
      obtain ⟨f, rfl⟩ : ∃ f, fuel = f + 1 := ⟨fuel - 1, by omega⟩
      simp [floorLog2Aux]
    | succ m ih =>
      intro fuel h
      have hp : 1 ≤ 2 ^ m := Nat.one_le_two_pow
      have hp1 : (2 : Nat) ^ (m + 1) = 2 ^ m * 2 := by ring
      obtain ⟨f, rfl⟩ : ∃ f, fuel = f + 1 := ⟨fuel - 1, by omega⟩
      rw [floorLog2Aux, if_pos (by omega), hp1, Nat.mul_div_cancel _ (by omega),
        ih f (by omega)]
  have hbo : cache_blockoffsetbits_of blocksize =
      Nat.clog 2 (blocksize * 4) := by
    rw [cache_blockoffsetbits_of, hbs,
      show (2 : Nat) ^ k * 4 = 2 ^ (k + 2) by ring]
    rw [hfla (k + 2) _ (le_refl _), Nat.clog_pow _ _ (by omega)]
  have hsh : (1 <<< index) = 2 ^ index := by
    rw [Nat.shiftLeft_eq, one_mul]
  refine ⟨?_, hbo, ?_⟩
  · rw [iplc_sim_init]
    simp only [hbo, hsh]
    split
    · next h => exact iff_of_true rfl h
    · next h => exact iff_of_false (by simp) h
  · intro st hst
    rw [iplc_sim_init] at hst
    split at hst
    · cases hst
    · injection hst with hst
      subst hst
      refine ⟨by simp [mkCacheState, hsh], ?_, rfl⟩
      intro s hs
      have hs' : s = initSet assoc :=
        List.eq_of_mem_replicate (by simpa [mkCacheState] using hs)
      subst hs'
      refine ⟨by simp [initSet], ?_⟩
      intro i hi
      rw [getLine_initSet assoc i hi]

/-- Witness for `init_size_check` at the accepted configuration
`index = 4, blocksize = 1, assoc = 1` (metric `16 * 59 = 944 ≤ 10240`). -/
theorem init_size_check_witness :
    (iplc_sim_init 4 1 1 0 = none ↔
      1 * 2 ^ 4 * (32 * 1 + 33 - 4 - Nat.clog 2 (1 * 4)) > MAX_CACHE_SIZE) ∧
    cache_blockoffsetbits_of 1 = Nat.clog 2 (1 * 4) ∧
    (∀ st : SimState, iplc_sim_init 4 1 1 0 = some st →
      st.cache.sets.length = 2 ^ 4 ∧
      (∀ s ∈ st.cache.sets, s.lines.length = 1 ∧
        ∀ i < 1, (getLine s i).valid = false) ∧
      st.pipeline = initPipeline) :=
  init_size_check 4 1 1 0 0 (by norm_num)
    (by rw [Nat.clog]; norm_num [Nat.clog])
    (by rw [Nat.clog]; norm_num [Nat.clog])

/-! ## The reference end-to-end nop scenario (claim C4) -/

/-- The complete run claimed by the specification scenario: initialise with
`index = 10, blocksize = 1, assoc = 1, branch_predict_taken = 0`, parse the
single trace line `0x1000 nop`, then drain.  `none` means the process
exited with nonzero status. -/
def c4_run : Option SimState :=
  (iplc_sim_init 10 1 1 0).map
    (fun st0 => iplc_sim_finalize (iplc_sim_parse_nop_line st0 4096))

/-- The same trace under the accepted configuration `index = 4`. -/
def c4_alt_run : Option SimState :=
  (iplc_sim_init 4 1 1 0).map
    (fun st0 => iplc_sim_finalize (iplc_sim_parse_nop_line st0 4096))

/-- **C4 counterexample** The claimed configuration `index = 10,
blocksize = 1, assoc = 1` is rejected at initialisation (its cache-size
metric is `1024 * 53 = 54272 > 10240`), so the claimed completed run does
not exist at all — contradicting every claimed final statistic. -/
theorem c4_claim_false :
    iplc_sim_init 10 1 1 0 = none ∧ c4_run = none := by
  constructor
  · rfl
  · rfl

set_option maxRecDepth 8192 in
/-- **C4 (amended)** The `index = 10` configuration exits nonzero at init
(metric `54272 > 10240`); under the accepted configuration `index = 4` the
one-line `0x1000 nop` trace ends with `cache_access = 1, cache_miss = 1,
cache_hit = 0, instruction_count = 0` (a nop line never enters the
pipeline, so nothing retires) `and pipeline_cycles = 10` (nine fetch-miss
bubble pushes plus the nop's own push, one cycle each; the drain finds the
pipeline already all-NOP). -/
theorem c4_amended_run :
    iplc_sim_init 10 1 1 0 = none ∧
    1 * (1 <<< 10) * (32 * 1 + 33 - 10 - cache_blockoffsetbits_of 1) =
      54272 ∧
    54272 > MAX_CACHE_SIZE ∧
    c4_run = none ∧
    c4_alt_run.map (fun st =>
        (st.cache.cache_access, st.cache.cache_miss, st.cache.cache_hit,
          st.instruction_count, st.pipeline_cycles)) =
      some (1, 1, 0, 0, 10) := by
  refine ⟨rfl, rfl, by norm_num [MAX_CACHE_SIZE], rfl, ?_⟩
  decide

/-! ## Well-formedness of the per-set recency chain (claim C3) -/

/-- `j` directly follows `i` on the recency chain: mutually consistent
`lru_next` / `lru_prev` pointers. -/
def nextRel (s : CacheSet) (i j : Nat) : Prop :=
  (getLine s i).lru_next = some j ∧ (getLine s j).lru_prev = some i

/-- `c` is the recency chain of `s` listed from the LRU tail to the MRU
head: nonempty, starts at `lru_tail`, ends at `lru_head`, in bounds, without
duplicates, consecutively linked in both directions, with `NULL` pointers at
the two ends. -/
structure ChainInv (s : CacheSet) (c : List Nat) : Prop where
  nonempty : c ≠ []
  tail_eq : c.head? = some s.lru_tail
  head_eq : c.getLast? = some s.lru_head
  bounds : ∀ i ∈ c, i < s.lines.length
  nodup : c.Nodup
  links : List.Chain' (nextRel s) c
  mru_next : (getLine s s.lru_head).lru_next = none
  tail_prev : (getLine s s.lru_tail).lru_prev = none

/-- A set is well formed when some chain `c` satisfies `ChainInv` and either
contains exactly the valid lines, or is the fresh singleton seeded at way 0
with every line invalid. -/
def SetWF (s : CacheSet) : Prop :=
  ∃ c, ChainInv s c ∧
    ((∀ i, i < s.lines.length → ((getLine s i).valid = true ↔ i ∈ c)) ∨
      (c = [0] ∧ ∀ i, i < s.lines.length → (getLine s i).valid = false))

theorem nextRel_congr (s s' : CacheSet) (x y : Nat)
    (hx : (getLine s' x).lru_next = (getLine s x).lru_next)
    (hy : (getLine s' y).lru_prev = (getLine s y).lru_prev)
    (h : nextRel s x y) : nextRel s' x y :=
  ⟨by rw [hx]; exact h.1, by rw [hy]; exact h.2⟩

theorem chain'_mem_congr {R S : Nat → Nat → Prop} :
    ∀ (c : List Nat), (∀ x ∈ c, ∀ y ∈ c, R x y → S x y) →
      List.Chain' R c → List.Chain' S c := by
  intro c
  induction c with
  | nil => intro _ _; exact List.chain'_nil
  | cons a rest ih =>
    intro hsub h
    cases rest with
    | nil => exact List.chain'_singleton a
    | cons b rest' =>
      rw [List.chain'_cons] at h ⊢
      refine ⟨hsub a (by simp) b (by simp) h.1, ?_⟩
      exact ih (fun x hx y hy => hsub x (by simp [hx]) y (by simp [hy])) h.2

/-- Extract the two pointer facts of one adjacent pair of the chain. -/
theorem ChainInv.adjacent {s : CacheSet} {c : List Nat} (inv : ChainInv s c)
    {a b : List Nat} {x y : Nat} (h : c = a ++ x :: y :: b) :
    nextRel s x y := by
  have hl := inv.links
  rw [h] at hl
  have h2 := (List.chain'_append.mp hl).2.1
  exact (List.chain'_cons.mp h2).1

theorem ChainInv.head_lt {s : CacheSet} {c : List Nat} (inv : ChainInv s c) :
    s.lru_head < s.lines.length := by
  have h := inv.head_eq
  have hm : s.lru_head ∈ c := by
    rcases List.getLast?_eq_some_iff.mp h with ⟨l', hl'⟩
    rw [hl']
    exact List.mem_concat_self l' s.lru_head
  exact inv.bounds _ hm

/-! ### Pointer-level characterization of `installMRU` -/

theorem installMRU_lru_tail (s : CacheSet) (li tag : Nat) :
    (installMRU s li tag).lru_tail = s.lru_tail := by
  simp only [installMRU]
  split <;> rfl

theorem installMRU_lru_head (s : CacheSet) (li tag : Nat)
    (hne : li ≠ s.lru_head) : (installMRU s li tag).lru_head = li := by
  simp only [installMRU]
  split
  · rename_i h
    rw [setLine_lru_head] at h
    exact absurd h hne
  · rfl

theorem installMRU_lru_head_self (s : CacheSet) (li tag : Nat)
    (heq : li = s.lru_head) : (installMRU s li tag).lru_head = s.lru_head := by
  simp only [installMRU]
  split
  · rw [setLine_lru_head]
  · rename_i h
    rw [setLine_lru_head] at h
    exact absurd heq h

theorem getLine_installMRU_self (s : CacheSet) (li tag : Nat)
    (hne : li ≠ s.lru_head) (hli : li < s.lines.length) :
    getLine (installMRU s li tag) li =
      { getLine s li with
          valid := true
          tag := tag
          lru_prev := some s.lru_head
          lru_next := none } := by
  simp only [installMRU]
  split
  · rename_i h
    rw [setLine_lru_head] at h
    exact absurd h hne
  · rw [getLine_chgHead,
      getLine_setLine_self _ _ _ (by simp only [setLine_length]; exact hli),
      getLine_setLine_ne _ _ _ _ (by rw [setLine_lru_head]; exact Ne.symm hne),
      getLine_setLine_self _ _ _ hli, setLine_lru_head, setLine_lru_head]

theorem getLine_installMRU_head (s : CacheSet) (li tag : Nat)
    (hne : li ≠ s.lru_head) (hh : s.lru_head < s.lines.length) :
    getLine (installMRU s li tag) s.lru_head =
      { getLine s s.lru_head with lru_next := some li } := by
  simp only [installMRU]
  split
  · rename_i h
    rw [setLine_lru_head] at h
    exact absurd h hne
  · rw [getLine_chgHead,
      getLine_setLine_ne _ _ _ _ hne,
      setLine_lru_head,
      getLine_setLine_self _ _ _ (by simp only [setLine_length]; exact hh),
      getLine_setLine_ne _ _ _ _ hne]

theorem getLine_installMRU_other (s : CacheSet) (li tag j : Nat)
    (hjli : j ≠ li) (hjh : j ≠ s.lru_head) :
    getLine (installMRU s li tag) j = getLine s j := by
  simp only [installMRU]
  split
  · exact getLine_setLine_ne _ _ _ _ (Ne.symm hjli)
  · rw [getLine_chgHead,
      getLine_setLine_ne _ _ _ _ (Ne.symm hjli),
      getLine_setLine_ne _ _ _ _
        (by rw [setLine_lru_head]; exact Ne.symm hjh),
      getLine_setLine_ne _ _ _ _ (Ne.symm hjli)]

theorem installMRU_eq_of_head (s : CacheSet) (li tag : Nat)
    (heq : li = s.lru_head) :
    installMRU s li tag =
      setLine s li (fun l => { l with valid := true, tag := tag }) := by
  simp only [installMRU]
  split
  · rfl
  · rename_i h
    rw [setLine_lru_head] at h
    exact absurd heq h

/-! ### Pointer-level characterization of `iplc_sim_LRU_update_on_hit` -/

theorem head_chgTail (s : CacheSet) (t : Nat) :
    ({ s with lru_tail := t } : CacheSet).lru_head = s.lru_head := rfl

theorem update_on_hit_eq_psome (s : CacheSet) (i nxt prv : Nat)
    (hn : (getLine s i).lru_next = some nxt)
    (hp : (getLine s i).lru_prev = some prv) :
    iplc_sim_LRU_update_on_hit s i =
      { setLine (setLine (setLine (setLine s nxt
            (fun l => { l with lru_prev := some prv }))
          prv (fun l => { l with lru_next := some nxt }))
          s.lru_head (fun l => { l with lru_next := some i }))
          i (fun l => { l with lru_prev := some s.lru_head, lru_next := none })
        with lru_head := i } := by
  simp only [iplc_sim_LRU_update_on_hit, hn, hp, setLine_lru_head]

theorem update_on_hit_eq_pnone (s : CacheSet) (i nxt : Nat)
    (hn : (getLine s i).lru_next = some nxt)
    (hp : (getLine s i).lru_prev = none) :
    iplc_sim_LRU_update_on_hit s i =
      { setLine (setLine (setLine
            { setLine s nxt (fun l => { l with lru_prev := none })
              with lru_tail := nxt }
            nxt (fun l => { l with lru_prev := none }))
          s.lru_head (fun l => { l with lru_next := some i }))
          i (fun l => { l with lru_prev := some s.lru_head, lru_next := none })
        with lru_head := i } := by
  simp only [iplc_sim_LRU_update_on_hit, hn, hp, setLine_lru_head, head_chgTail]

/-- All pointer effects of a hit promotion whose line has a predecessor:
the promoted line moves behind the old head, its neighbours are stitched
together, and everything else is untouched. -/
theorem update_on_hit_char_psome (s : CacheSet) (i nxt prv : Nat)
    (hn : (getLine s i).lru_next = some nxt)
    (hp : (getLine s i).lru_prev = some prv)
    (hilen : i < s.lines.length)
    (hni : nxt ≠ i) (hpi : prv ≠ i) (hpn : prv ≠ nxt) (hhi : s.lru_head ≠ i) :
    (iplc_sim_LRU_update_on_hit s i).lru_head = i ∧
    (iplc_sim_LRU_update_on_hit s i).lru_tail = s.lru_tail ∧
    getLine (iplc_sim_LRU_update_on_hit s i) i =
      { getLine s i with lru_prev := some s.lru_head, lru_next := none } ∧
    (prv < s.lines.length → s.lru_head ≠ prv →
      getLine (iplc_sim_LRU_update_on_hit s i) prv =
        { getLine s prv with lru_next := some nxt }) ∧
    (nxt < s.lines.length → s.lru_head ≠ nxt →
      getLine (iplc_sim_LRU_update_on_hit s i) nxt =
        { getLine s nxt with lru_prev := some prv }) ∧
    (nxt < s.lines.length → s.lru_head = nxt →
      getLine (iplc_sim_LRU_update_on_hit s i) nxt =
        { getLine s nxt with lru_prev := some prv, lru_next := some i }) ∧
    (s.lru_head < s.lines.length → s.lru_head ≠ nxt → s.lru_head ≠ prv →
      getLine (iplc_sim_LRU_update_on_hit s i) s.lru_head =
        { getLine s s.lru_head with lru_next := some i }) ∧
    (∀ j, j ≠ i → j ≠ prv → j ≠ nxt → j ≠ s.lru_head →
      getLine (iplc_sim_LRU_update_on_hit s i) j = getLine s j) := by
  rw [update_on_hit_eq_psome s i nxt prv hn hp]
  refine ⟨rfl, rfl, ?_, ?_, ?_, ?_, ?_, ?_⟩
  · rw [getLine_chgHead,
      getLine_setLine_self _ _ _
        (by simp only [setLine_length]; exact hilen),
      getLine_setLine_ne _ _ _ _ hhi,
      getLine_setLine_ne _ _ _ _ hpi,
      getLine_setLine_ne _ _ _ _ hni]
  · intro hplen hhp
    rw [getLine_chgHead,
      getLine_setLine_ne _ _ _ _ (Ne.symm hpi),
      getLine_setLine_ne _ _ _ _ hhp,
      getLine_setLine_self _ _ _
        (by simp only [setLine_length]; exact hplen),
      getLine_setLine_ne _ _ _ _ (Ne.symm hpn)]
  · intro hnlen hhn
    rw [getLine_chgHead,
      getLine_setLine_ne _ _ _ _ (Ne.symm hni),
      getLine_setLine_ne _ _ _ _ hhn,
      getLine_setLine_ne _ _ _ _ hpn,
      getLine_setLine_self _ _ _ hnlen]
  · intro hnlen hH
    rw [getLine_chgHead,
      getLine_setLine_ne _ _ _ _ (Ne.symm hni), hH,
      getLine_setLine_self _ _ _
        (by simp only [setLine_length]; exact hnlen),
      getLine_setLine_ne _ _ _ _ hpn,
      getLine_setLine_self _ _ _ hnlen]
  · intro hhlen hhn hhp
    rw [getLine_chgHead,
      getLine_setLine_ne _ _ _ _ (Ne.symm hhi),
      getLine_setLine_self _ _ _
        (by simp only [setLine_length]; exact hhlen),
      getLine_setLine_ne _ _ _ _ (Ne.symm hhp),
      getLine_setLine_ne _ _ _ _ (Ne.symm hhn)]
  · intro j hji hjp hjn hjh
    rw [getLine_chgHead,
      getLine_setLine_ne _ _ _ _ (Ne.symm hji),
      getLine_setLine_ne _ _ _ _ (Ne.symm hjh),
      getLine_setLine_ne _ _ _ _ (Ne.symm hjp),
      getLine_setLine_ne _ _ _ _ (Ne.symm hjn)]

/-- All pointer effects of a hit promotion whose line is the current LRU
tail: additionally the tail pointer advances to the line's successor, whose
`lru_prev` becomes `NULL`. -/
theorem update_on_hit_char_pnone (s : CacheSet) (i nxt : Nat)
    (hn : (getLine s i).lru_next = some nxt)
    (hp : (getLine s i).lru_prev = none)
    (hilen : i < s.lines.length)
    (hni : nxt ≠ i) (hhi : s.lru_head ≠ i) :
    (iplc_sim_LRU_update_on_hit s i).lru_head = i ∧
    (iplc_sim_LRU_update_on_hit s i).lru_tail = nxt ∧
    getLine (iplc_sim_LRU_update_on_hit s i) i =
      { getLine s i with lru_prev := some s.lru_head, lru_next := none } ∧
    (nxt < s.lines.length → s.lru_head ≠ nxt →
      getLine (iplc_sim_LRU_update_on_hit s i) nxt =
        { getLine s nxt with lru_prev := none }) ∧
    (nxt < s.lines.length → s.lru_head = nxt →
      getLine (iplc_sim_LRU_update_on_hit s i) nxt =
        { getLine s nxt with lru_prev := none, lru_next := some i }) ∧
    (s.lru_head < s.lines.length → s.lru_head ≠ nxt →
      getLine (iplc_sim_LRU_update_on_hit s i) s.lru_head =
        { getLine s s.lru_head with lru_next := some i }) ∧
    (∀ j, j ≠ i → j ≠ nxt → j ≠ s.lru_head →
      getLine (iplc_sim_LRU_update_on_hit s i) j = getLine s j) := by
  rw [update_on_hit_eq_pnone s i nxt hn hp]
  refine ⟨rfl, rfl, ?_, ?_, ?_, ?_, ?_⟩
  · rw [getLine_chgHead,
      getLine_setLine_self _ _ _
        (by simp only [setLine_length, lines_chgTail]; exact hilen),
      getLine_setLine_ne _ _ _ _ hhi,
      getLine_setLine_ne _ _ _ _ hni, getLine_chgTail,
      getLine_setLine_ne _ _ _ _ hni]
  · intro hnlen hhn
    rw [getLine_chgHead,
      getLine_setLine_ne _ _ _ _ (Ne.symm hni),
      getLine_setLine_ne _ _ _ _ hhn,
      getLine_setLine_self _ _ _
        (by simp only [setLine_length, lines_chgTail]; exact hnlen),
      getLine_chgTail,
      getLine_setLine_self _ _ _ hnlen]
  · intro hnlen hH
    rw [getLine_chgHead,
      getLine_setLine_ne _ _ _ _ (Ne.symm hni), hH,
      getLine_setLine_self _ _ _
        (by simp only [setLine_length, lines_chgTail]; exact hnlen),
      getLine_setLine_self _ _ _
        (by simp only [setLine_length, lines_chgTail]; exact hnlen),
      getLine_chgTail,
      getLine_setLine_self _ _ _ hnlen]
  · intro hhlen hhn
    rw [getLine_chgHead,
      getLine_setLine_ne _ _ _ _ (Ne.symm hhi),
      getLine_setLine_self _ _ _
        (by simp only [setLine_length, lines_chgTail]; exact hhlen),
      getLine_setLine_ne _ _ _ _ (Ne.symm hhn), getLine_chgTail,
      getLine_setLine_ne _ _ _ _ (Ne.symm hhn)]
  · intro j hji hjn hjh
    rw [getLine_chgHead,
      getLine_setLine_ne _ _ _ _ (Ne.symm hji),
      getLine_setLine_ne _ _ _ _ (Ne.symm hjh),
      getLine_setLine_ne _ _ _ _ (Ne.symm hjn), getLine_chgTail,
      getLine_setLine_ne _ _ _ _ (Ne.symm hjn)]

/-! ### List helpers for the chain surgery -/

theorem getLast?_mem {l : List Nat} {x : Nat} (h : l.getLast? = some x) :
    x ∈ l := by
  rcases List.getLast?_eq_some_iff.mp h with ⟨l', hl'⟩
  rw [hl']
  exact List.mem_concat_self l' x

theorem head?_mem {l : List Nat} {x : Nat} (h : l.head? = some x) : x ∈ l := by
  cases l with
  | nil => cases h
  | cons a t =>
    rw [List.head?_cons] at h
    injection h with h
    rw [← h]
    exact List.mem_cons_self ..

theorem head?_append_left (l₁ l₂ : List Nat) (h : l₁ ≠ []) :
    (l₁ ++ l₂).head? = l₁.head? := by
  cases l₁ with
  | nil => exact absurd rfl h
  | cons a t => rfl

theorem eq_nil_or_concat' (l : List Nat) : l = [] ∨ ∃ l' a, l = l' ++ [a] := by
  rcases List.eq_nil_or_concat l with h | ⟨L, b, h⟩
  · exact Or.inl h
  · exact Or.inr ⟨L, b, by rw [h, List.concat_eq_append]⟩

theorem nodup_snoc {c : List Nat} {i : Nat} (h : c.Nodup) (hi : i ∉ c) :
    (c ++ [i]).Nodup := by
  rw [List.nodup_append]
  exact ⟨h, List.nodup_singleton i,
    fun x hx hx1 => hi (by rwa [List.mem_singleton.mp hx1] at hx)⟩

theorem nodup_parts {a b : List Nat} {i : Nat} (h : (a ++ i :: b).Nodup) :
    i ∉ a ∧ i ∉ b ∧ (a ++ b).Nodup := by
  rw [List.nodup_append] at h
  obtain ⟨ha, hib, hd⟩ := h
  rw [List.nodup_cons] at hib
  refine ⟨fun hia => hd hia (List.mem_cons_self ..), hib.1, ?_⟩
  rw [List.nodup_append]
  exact ⟨ha, hib.2, fun x hx hxb => hd hx (List.mem_cons_of_mem _ hxb)⟩

theorem nodup_surgery {a b : List Nat} {i : Nat} (h : (a ++ i :: b).Nodup) :
    ((a ++ b) ++ [i]).Nodup := by
  obtain ⟨hia, hib, hab⟩ := nodup_parts h
  exact nodup_snoc hab (fun hm => by
    rcases List.mem_append.mp hm with hm | hm
    · exact hia hm
    · exact hib hm)

theorem mem_surgery {a b : List Nat} {i j : Nat} :
    (j ∈ (a ++ b) ++ [i]) ↔ j ∈ a ++ i :: b := by
  simp only [List.mem_append, List.mem_singleton, List.mem_cons]
  tauto

theorem ChainInv.tail_lt {s : CacheSet} {c : List Nat} (inv : ChainInv s c) :
    s.lru_tail < s.lines.length := by
  have h := inv.tail_eq
  have hm : s.lru_tail ∈ c := by
    cases c with
    | nil => cases h
    | cons x rest =>
      rw [List.head?_cons] at h
      injection h with h
      rw [← h]
      exact List.mem_cons_self ..
  exact inv.bounds _ hm

/-- A freshly allocated set is well formed: the chain is the singleton seeded
at way 0 (`lru_head = lru_tail = &ways[0]`) and every line is invalid. -/
theorem setWF_initSet (assoc : Nat) (ha : 1 ≤ assoc) : SetWF (initSet assoc) := by
  have hlen : (initSet assoc).lines.length = assoc := by
    simp [initSet]
  have h0 : getLine (initSet assoc) 0 = ⟨false, 0, none, none⟩ :=
    getLine_initSet assoc 0 ha
  refine ⟨[0], ⟨by simp, rfl, rfl, ?_, List.nodup_singleton 0,
    List.chain'_singleton 0, ?_, ?_⟩, Or.inr ⟨rfl, ?_⟩⟩
  · intro j hj
    rw [List.mem_singleton.mp hj, hlen]
    exact ha
  · show (getLine (initSet assoc) 0).lru_next = none
    rw [h0]
  · show (getLine (initSet assoc) 0).lru_prev = none
    rw [h0]
  · intro j hj
    rw [hlen] at hj
    rw [getLine_initSet assoc j hj]

/-- A cold miss fills the first invalid way and appends it at the MRU end of
a well-formed chain (or validates the seeded way 0 of a fresh set). -/
theorem setWF_cold (s : CacheSet) (i tag : Nat) (hwf : SetWF s)
    (hiv : (getLine s i).valid = false) (hilen : i < s.lines.length)
    (hbelow : ∀ j, j < i → (getLine s j).valid = true) :
    SetWF (iplc_sim_LRU_replace_on_miss s (some i) tag) := by
  have hrepl : iplc_sim_LRU_replace_on_miss s (some i) tag =
      installMRU s i tag := rfl
  rw [hrepl]
  obtain ⟨c, inv, hmode⟩ := hwf
  rcases hmode with hca | ⟨hc0, hallinv⟩
  · -- the chain already lists exactly the valid lines
    have hic : i ∉ c := fun hm => by
      have := (hca i hilen).mpr hm
      rw [hiv] at this
      cases this
    have hh_mem : s.lru_head ∈ c := getLast?_mem inv.head_eq
    have hhlen : s.lru_head < s.lines.length := inv.head_lt
    have hih : i ≠ s.lru_head := fun he => hic (he ▸ hh_mem)
    have hlen' : (installMRU s i tag).lines.length = s.lines.length :=
      installMRU_length ..
    have hhead' : (installMRU s i tag).lru_head = i :=
      installMRU_lru_head _ _ _ hih
    have htail' : (installMRU s i tag).lru_tail = s.lru_tail :=
      installMRU_lru_tail ..
    have hself := getLine_installMRU_self s i tag hih hilen
    have hheadline := getLine_installMRU_head s i tag hih hhlen
    have hother := fun j h1 h2 => getLine_installMRU_other s i tag j h1 h2
    have hprev_pres : ∀ j, j ≠ i →
        (getLine (installMRU s i tag) j).lru_prev = (getLine s j).lru_prev := by
      intro j hj
      by_cases hjh : j = s.lru_head
      · rw [hjh, hheadline]
      · rw [hother j hj hjh]
    refine ⟨c ++ [i], ⟨by simp, ?_, ?_, ?_, nodup_snoc inv.nodup hic, ?_,
      ?_, ?_⟩, Or.inl ?_⟩
    · rw [htail', head?_append_left c [i] inv.nonempty, inv.tail_eq]
    · rw [List.getLast?_concat, hhead']
    · intro j hj
      rw [hlen']
      rcases List.mem_append.mp hj with hj | hj
      · exact inv.bounds j hj
      · rw [List.mem_singleton.mp hj]
        exact hilen
    · refine List.chain'_append.mpr ⟨?_, List.chain'_singleton i, ?_⟩
      · refine chain'_mem_congr c ?_ inv.links
        intro x hx y hy hrel
        by_cases hxh : x = s.lru_head
        · have h1 := hrel.1
          rw [hxh, inv.mru_next] at h1
          exact Option.noConfusion h1
        · have hxi : x ≠ i := fun he => hic (he ▸ hx)
          have hyi : y ≠ i := fun he => hic (he ▸ hy)
          exact nextRel_congr s _ x y (by rw [hother x hxi hxh])
            (hprev_pres y hyi) hrel
      · intro x hx y hy
        rw [Option.mem_def, inv.head_eq] at hx
        injection hx with hx
        rw [Option.mem_def] at hy
        injection hy with hy
        rw [← hx, ← hy]
        exact ⟨by rw [hheadline], by rw [hself]⟩
    · rw [hhead', hself]
    · rw [htail']
      have hti : s.lru_tail ≠ i := fun he =>
        hic (he ▸ head?_mem inv.tail_eq)
      rw [hprev_pres _ hti, inv.tail_prev]
    · intro j hj
      rw [hlen'] at hj
      by_cases hji : j = i
      · subst hji
        exact iff_of_true (by rw [hself])
          (List.mem_append.mpr (Or.inr (List.mem_singleton.mpr rfl)))
      · have hvv : (getLine (installMRU s i tag) j).valid =
            (getLine s j).valid :=
          congrArg Prod.fst (installMRU_vt_other s i tag j hji)
        rw [hvv, hca j hj]
        simp [List.mem_append, hji]
  · -- the seeded fresh set: the first fill lands in way 0
    have hi0 : i = 0 := by
      by_contra h0
      have h2 := hbelow 0 (Nat.pos_of_ne_zero h0)
      have h3 := hallinv 0 (by omega)
      rw [h2] at h3
      cases h3
    subst hi0
    have hhead0 : s.lru_head = 0 := by
      have h := inv.head_eq
      rw [hc0] at h
      simp at h
      omega
    have htail0 : s.lru_tail = 0 := by
      have h := inv.tail_eq
      rw [hc0] at h
      simp at h
      omega
    rw [installMRU_eq_of_head s 0 tag hhead0.symm]
    refine ⟨[0], ⟨by simp, ?_, ?_, ?_, List.nodup_singleton 0,
      List.chain'_singleton 0, ?_, ?_⟩, Or.inl ?_⟩
    · rw [setLine_lru_tail, htail0]
      simp
    · rw [setLine_lru_head, hhead0]
      simp
    · intro j hj
      rw [List.mem_singleton.mp hj, setLine_length]
      exact hilen
    · rw [setLine_lru_head, hhead0, getLine_setLine_self _ _ _ hilen]
      show (getLine s 0).lru_next = none
      have := inv.mru_next
      rwa [hhead0] at this
    · rw [setLine_lru_tail, htail0, getLine_setLine_self _ _ _ hilen]
      show (getLine s 0).lru_prev = none
      have := inv.tail_prev
      rwa [htail0] at this
    · intro j hj
      rw [setLine_length] at hj
      by_cases hj0 : j = 0
      · subst hj0
        exact iff_of_true (by rw [getLine_setLine_self _ _ _ hilen])
          (List.mem_singleton.mpr rfl)
      · rw [getLine_setLine_ne _ _ _ _ (Ne.symm hj0)]
        exact iff_of_false (by rw [hallinv j hj]; simp) (by simp [hj0])

/-- Replacing on a full set evicts the LRU tail, advances the tail to its
successor and reinstalls the evicted way at the MRU end, keeping the chain
well formed. -/
theorem setWF_full (s : CacheSet) (tag : Nat) (hwf : SetWF s)
    (hall : ∀ j, j < s.lines.length → (getLine s j).valid = true)
    (hlen1 : 1 ≤ s.lines.length) :
    SetWF (iplc_sim_LRU_replace_on_miss s none tag) := by
  obtain ⟨c, inv, hmode⟩ := hwf
  rcases hmode with hca | ⟨hc0, hallinv⟩
  case inr.intro =>
    have h1 := hallinv 0 hlen1
    rw [hall 0 hlen1] at h1
    cases h1
  rcases c with _ | ⟨t, c₂⟩
  · exact absurd rfl inv.nonempty
  have htail : s.lru_tail = t := by
    have h := inv.tail_eq
    rw [List.head?_cons] at h
    injection h with h
    exact h.symm
  rcases c₂ with _ | ⟨nxt, rest⟩
  · -- singleton chain: the whole set is one way, rewritten in place
    have hht : s.lru_head = t := by
      have h := inv.head_eq
      simp at h
      omega
    have hnone : (getLine s s.lru_tail).lru_next = none := by
      rw [htail, ← hht]
      exact inv.mru_next
    have hrepl : iplc_sim_LRU_replace_on_miss s none tag =
        installMRU s s.lru_tail tag := by
      simp only [iplc_sim_LRU_replace_on_miss, hnone]
    rw [hrepl, installMRU_eq_of_head s s.lru_tail tag (by rw [htail, hht])]
    have htlen : s.lru_tail < s.lines.length := inv.tail_lt
    refine ⟨[t], ⟨by simp, ?_, ?_, ?_, List.nodup_singleton t,
      List.chain'_singleton t, ?_, ?_⟩, Or.inl ?_⟩
    · rw [setLine_lru_tail, htail]
      simp
    · rw [setLine_lru_head, hht]
      simp
    · intro j hj
      rw [List.mem_singleton.mp hj, setLine_length, ← htail]
      exact htlen
    · rw [setLine_lru_head, hht, ← htail, getLine_setLine_self _ _ _ htlen]
      show (getLine s s.lru_tail).lru_next = none
      exact hnone
    · rw [setLine_lru_tail, htail, ← htail, getLine_setLine_self _ _ _ htlen]
      show (getLine s s.lru_tail).lru_prev = none
      exact inv.tail_prev
    · intro j hj
      rw [setLine_length] at hj
      by_cases hjt : j = s.lru_tail
      · rw [hjt, getLine_setLine_self _ _ _ htlen]
        exact iff_of_true rfl (by rw [htail]; simp)
      · exact absurd (List.mem_singleton.mp ((hca j hj).mp (hall j hj)))
          (by rw [htail] at hjt; exact hjt)
  · -- at least two nodes: evict the tail, advance, reinstall as MRU
    have hadj : nextRel s t nxt := inv.adjacent (a := []) (b := rest) rfl
    have hn : (getLine s t).lru_next = some nxt := hadj.1
    have hrepl : iplc_sim_LRU_replace_on_miss s none tag =
        installMRU
          (setLine { s with lru_tail := nxt } nxt
            (fun l => { l with lru_prev := none })) t tag := by
      simp only [iplc_sim_LRU_replace_on_miss, htail, hn]
    rw [hrepl]
    have hnd := List.nodup_cons.mp inv.nodup
    have hlast : (nxt :: rest).getLast? = some s.lru_head := by
      have h := inv.head_eq
      rwa [List.getLast?_cons_cons] at h
    have hh_mem : s.lru_head ∈ nxt :: rest := getLast?_mem hlast
    have hth : t ≠ s.lru_head := fun he => hnd.1 (he ▸ hh_mem)
    have htn : t ≠ nxt := fun he => hnd.1 (he ▸ List.mem_cons_self ..)
    have htlen : t < s.lines.length := by
      rw [← htail]
      exact inv.tail_lt
    have hnlen : nxt < s.lines.length :=
      inv.bounds nxt (by simp)
    have hhlen : s.lru_head < s.lines.length := inv.head_lt
    have hpre_len :
        (setLine { s with lru_tail := nxt } nxt
          (fun l => { l with lru_prev := none })).lines.length =
          s.lines.length := by
      rw [setLine_length, lines_chgTail]
    have hpre_head :
        (setLine { s with lru_tail := nxt } nxt
          (fun l => { l with lru_prev := none })).lru_head = s.lru_head := by
      rw [setLine_lru_head, head_chgTail]
    have hpre_tail :
        (setLine { s with lru_tail := nxt } nxt
          (fun l => { l with lru_prev := none })).lru_tail = nxt := by
      rw [setLine_lru_tail]
    have hpre_nxt :
        getLine (setLine { s with lru_tail := nxt } nxt
          (fun l => { l with lru_prev := none })) nxt =
          { getLine s nxt with lru_prev := none } := by
      rw [getLine_setLine_self _ _ _ (by rw [lines_chgTail]; exact hnlen),
        getLine_chgTail]
    have hpre_other : ∀ j, j ≠ nxt →
        getLine (setLine { s with lru_tail := nxt } nxt
          (fun l => { l with lru_prev := none })) j = getLine s j := by
      intro j hj
      rw [getLine_setLine_ne _ _ _ _ (Ne.symm hj), getLine_chgTail]
    set pre := setLine { s with lru_tail := nxt } nxt
      (fun l => { l with lru_prev := none }) with hpre
    have hne : t ≠ pre.lru_head := by
      rw [hpre_head]
      exact hth
    have hli : t < pre.lines.length := by
      rw [hpre_len]
      exact htlen
    have hlen' : (installMRU pre t tag).lines.length = s.lines.length := by
      rw [installMRU_length, hpre_len]
    have hhead' : (installMRU pre t tag).lru_head = t :=
      installMRU_lru_head _ _ _ hne
    have htail' : (installMRU pre t tag).lru_tail = nxt := by
      rw [installMRU_lru_tail, hpre_tail]
    have hself : getLine (installMRU pre t tag) t =
        { getLine s t with
            valid := true
            tag := tag
            lru_prev := some s.lru_head
            lru_next := none } := by
      rw [getLine_installMRU_self pre t tag hne hli, hpre_other t htn,
        hpre_head]
    have hheadline : getLine (installMRU pre t tag) s.lru_head =
        { getLine pre s.lru_head with lru_next := some t } := by
      have h1 := getLine_installMRU_head pre t tag hne
        (by rw [hpre_len, hpre_head]; exact hhlen)
      rwa [hpre_head] at h1
    have hother' : ∀ j, j ≠ t → j ≠ s.lru_head →
        getLine (installMRU pre t tag) j = getLine pre j := by
      intro j h1 h2
      exact getLine_installMRU_other pre t tag j h1 (by rw [hpre_head]; exact h2)
    have hnext_pres : ∀ j, j ≠ t → j ≠ s.lru_head →
        (getLine (installMRU pre t tag) j).lru_next =
          (getLine s j).lru_next := by
      intro j h1 h2
      rw [hother' j h1 h2]
      by_cases hjn : j = nxt
      · rw [hjn, hpre_nxt]
      · rw [hpre_other j hjn]
    have hprev_pres : ∀ j, j ≠ t → j ≠ nxt →
        (getLine (installMRU pre t tag) j).lru_prev =
          (getLine s j).lru_prev := by
      intro j h1 h2
      by_cases hjh : j = s.lru_head
      · rw [hjh, hheadline]
        show (getLine pre s.lru_head).lru_prev = (getLine s s.lru_head).lru_prev
        rw [hpre_other s.lru_head (by rw [← hjh]; exact h2)]
      · rw [hother' j h1 hjh, hpre_other j h2]
    have hnext_head : (getLine (installMRU pre t tag) s.lru_head).lru_next =
        some t := by
      rw [hheadline]
    have hprev_nxt' : (getLine (installMRU pre t tag) nxt).lru_prev = none := by
      by_cases hhn : s.lru_head = nxt
      · rw [← hhn, hheadline]
        show (getLine pre s.lru_head).lru_prev = none
        rw [hhn, hpre_nxt]
      · rw [hother' nxt (Ne.symm htn) (fun he => hhn he.symm), hpre_nxt]
    have hvt' : ∀ j, j ≠ t →
        (getLine (installMRU pre t tag) j).valid = (getLine s j).valid := by
      intro j hj
      have h1 : (getLine (installMRU pre t tag) j).valid =
          (getLine pre j).valid :=
        congrArg Prod.fst (installMRU_vt_other pre t tag j hj)
      rw [h1]
      by_cases hjn : j = nxt
      · rw [hjn, hpre_nxt]
      · rw [hpre_other j hjn]
    refine ⟨(nxt :: rest) ++ [t], ⟨by simp, ?_, ?_, ?_,
      nodup_snoc hnd.2 hnd.1, ?_, ?_, ?_⟩, Or.inl ?_⟩
    · rw [htail', head?_append_left _ _ (List.cons_ne_nil _ _)]
      rfl
    · rw [List.getLast?_concat, hhead']
    · intro j hj
      rw [hlen']
      rcases List.mem_append.mp hj with hj | hj
      · exact inv.bounds j (List.mem_cons_of_mem t hj)
      · rw [List.mem_singleton.mp hj]
        exact htlen
    · refine List.chain'_append.mpr ⟨?_, List.chain'_singleton t, ?_⟩
      · refine chain'_mem_congr (nxt :: rest) ?_ (List.chain'_cons.mp inv.links).2
        intro x hx y hy hrel
        by_cases hxh : x = s.lru_head
        · have h1 := hrel.1
          rw [hxh, inv.mru_next] at h1
          exact Option.noConfusion h1
        · have hxt : x ≠ t := fun he => hnd.1 (he ▸ hx)
          by_cases hyn : y = nxt
          · have h2 := hrel.2
            rw [hyn] at h2
            have h3 := hadj.2.symm.trans h2
            injection h3 with h3
            exact absurd (h3 ▸ hx) hnd.1
          · have hyt : y ≠ t := fun he => hnd.1 (he ▸ hy)
            exact nextRel_congr s _ x y (hnext_pres x hxt hxh)
              (hprev_pres y hyt hyn) hrel
      · intro x hx y hy
        rw [Option.mem_def, hlast] at hx
        injection hx with hx
        rw [Option.mem_def] at hy
        injection hy with hy
        rw [← hx, ← hy]
        exact ⟨hnext_head, by rw [hself]⟩
    · rw [hhead', hself]
    · rw [htail']
      exact hprev_nxt'
    · intro j hj
      rw [hlen'] at hj
      by_cases hjt : j = t
      · rw [hjt]
        exact iff_of_true (by rw [hself]) (List.mem_append.mpr (Or.inr (by simp)))
      · refine iff_of_true (by rw [hvt' j hjt]; exact hall j hj) ?_
        have hm := (hca j hj).mp (hall j hj)
        rcases List.mem_cons.mp hm with he | hm2
        · exact absurd he hjt
        · exact List.mem_append.mpr (Or.inl hm2)

/-- A hit promotion keeps the chain well formed: the hit way is unspliced
from its position and re-linked at the MRU end (a no-op when it already is
the head). -/
theorem setWF_hit (s : CacheSet) (i : Nat) (hwf : SetWF s)
    (hv : (getLine s i).valid = true) (hilen : i < s.lines.length) :
    SetWF (iplc_sim_LRU_update_on_hit s i) := by
  obtain ⟨c, inv, hmode⟩ := hwf
  rcases hmode with hca | ⟨hc0, hallinv⟩
  case inr.intro =>
    have h1 := hallinv i hilen
    rw [hv] at h1
    cases h1
  have hic : i ∈ c := (hca i hilen).mp hv
  obtain ⟨a, b, hc⟩ := List.append_of_mem hic
  subst hc
  rcases b with _ | ⟨nxt, b'⟩
  · -- the hit way is the MRU head: the promotion is a no-op
    have hih : s.lru_head = i := by
      have h := inv.head_eq
      rw [List.getLast?_append_cons] at h
      simp at h
      omega
    have hnone : (getLine s i).lru_next = none := by
      rw [← hih]
      exact inv.mru_next
    rw [update_on_hit_next_none s i hnone]
    exact ⟨a ++ [i], inv, Or.inl hca⟩
  · -- the hit way sits strictly before the head: real splice
    have hadj : nextRel s i nxt := inv.adjacent (a := a) (b := b') rfl
    have hn := hadj.1
    have hpnxt := hadj.2
    have hnd := inv.nodup
    obtain ⟨hia, hinb, hanb⟩ := nodup_parts (a := a) (b := nxt :: b') hnd
    have hinxt : i ≠ nxt := fun he => hinb (he ▸ List.mem_cons_self ..)
    have hlast : (nxt :: b').getLast? = some s.lru_head := by
      have h := inv.head_eq
      rwa [List.getLast?_append_cons, List.getLast?_cons_cons] at h
    have hh_mem : s.lru_head ∈ nxt :: b' := getLast?_mem hlast
    have hhi : s.lru_head ≠ i := fun he => hinb (he ▸ hh_mem)
    have hhlen : s.lru_head < s.lines.length := inv.head_lt
    have hnlen : nxt < s.lines.length := inv.bounds nxt (by simp)
    have hdisj : List.Disjoint a (i :: nxt :: b') :=
      (List.nodup_append.mp hnd).2.2
    have hha : s.lru_head ∉ a := fun hm =>
      hdisj hm (List.mem_cons_of_mem i hh_mem)
    have hlen' : (iplc_sim_LRU_update_on_hit s i).lines.length =
        s.lines.length := update_on_hit_length s i
    have hvt : ∀ j, (getLine (iplc_sim_LRU_update_on_hit s i) j).valid =
        (getLine s j).valid := fun j => valid_update_on_hit s i j
    rcases eq_nil_or_concat' a with rfl | ⟨a₀, prv, rfl⟩
    · -- the hit way is the LRU tail
      have htaili : s.lru_tail = i := by
        have h := inv.tail_eq
        simp only [List.nil_append, List.head?_cons] at h
        injection h with h
        exact h.symm
      have hp : (getLine s i).lru_prev = none := by
        rw [← htaili]
        exact inv.tail_prev
      obtain ⟨hhead', htail', hselfc, hnxtne, hnxteq, hheadc, hotherc⟩ :=
        update_on_hit_char_pnone s i nxt hn hp hilen (Ne.symm hinxt) hhi
      have hnext_pres : ∀ j, j ≠ i → j ≠ s.lru_head →
          (getLine (iplc_sim_LRU_update_on_hit s i) j).lru_next =
            (getLine s j).lru_next := by
        intro j h1 h2
        by_cases hjn : j = nxt
        · subst hjn
          rw [hnxtne hnlen (Ne.symm h2)]
        · rw [hotherc j h1 hjn h2]
      have hprev_pres : ∀ j, j ≠ i → j ≠ nxt →
          (getLine (iplc_sim_LRU_update_on_hit s i) j).lru_prev =
            (getLine s j).lru_prev := by
        intro j h1 h2
        by_cases hjh : j = s.lru_head
        · subst hjh
          rw [hheadc hhlen h2]
        · rw [hotherc j h1 h2 hjh]
      refine ⟨(nxt :: b') ++ [i], ⟨by simp, ?_, ?_, ?_, ?_, ?_, ?_, ?_⟩,
        Or.inl ?_⟩
      · rw [htail', head?_append_left _ _ (List.cons_ne_nil _ _)]
        rfl
      · rw [List.getLast?_concat, hhead']
      · intro j hj
        rw [hlen']
        rcases List.mem_append.mp hj with hj | hj
        · exact inv.bounds j (by simp [List.mem_cons.mp hj])
        · rw [List.mem_singleton.mp hj]
          exact hilen
      · exact nodup_snoc hanb hinb
      · refine List.chain'_append.mpr ⟨?_, List.chain'_singleton i, ?_⟩
        · have hold : List.Chain' (nextRel s) (nxt :: b') := by
            have h := inv.links
            simp only [List.nil_append] at h
            exact (List.chain'_cons.mp h).2
          refine chain'_mem_congr (nxt :: b') ?_ hold
          intro x hx y hy hrel
          by_cases hxh : x = s.lru_head
          · have h1 := hrel.1
            rw [hxh, inv.mru_next] at h1
            exact Option.noConfusion h1
          · have hxi : x ≠ i := fun he => hinb (he ▸ hx)
            by_cases hyn : y = nxt
            · have h2 := hrel.2
              rw [hyn] at h2
              have h3 := hpnxt.symm.trans h2
              injection h3 with h3
              exact absurd (h3 ▸ hx) hinb
            · have hyi : y ≠ i := fun he => hinb (he ▸ hy)
              exact nextRel_congr s _ x y (hnext_pres x hxi hxh)
                (hprev_pres y hyi hyn) hrel
        · intro x hx y hy
          rw [Option.mem_def, hlast] at hx
          injection hx with hx
          rw [Option.mem_def] at hy
          injection hy with hy
          rw [← hx, ← hy]
          refine ⟨?_, by rw [hselfc]⟩
          by_cases hhn : s.lru_head = nxt
          · rw [hhn, hnxteq hnlen hhn]
          · rw [hheadc hhlen hhn]
      · rw [hhead', hselfc]
      · rw [htail']
        by_cases hhn : s.lru_head = nxt
        · rw [hnxteq hnlen hhn]
        · rw [hnxtne hnlen hhn]
      · intro j hj
        rw [hlen'] at hj
        rw [hvt j, hca j hj]
        simp only [List.nil_append, List.mem_append, List.mem_cons,
          List.mem_singleton]
        tauto
    · -- the hit way has a predecessor `prv`
      have hprv_mem_a : prv ∈ a₀ ++ [prv] := by simp
      have hadjp : nextRel s prv i :=
        inv.adjacent (a := a₀) (b := nxt :: b') (by simp)
      have hp : (getLine s i).lru_prev = some prv := hadjp.2
      have hpn_next : (getLine s prv).lru_next = some i := hadjp.1
      have hpi : prv ≠ i := fun he => hia (he ▸ hprv_mem_a)
      have hpn : prv ≠ nxt := fun he =>
        hdisj hprv_mem_a (by rw [he]; simp)
      have hhp : s.lru_head ≠ prv := fun he => hha (he ▸ hprv_mem_a)
      have hplen : prv < s.lines.length := inv.bounds prv (by simp)
      have hpnb : prv ∉ nxt :: b' := fun hm =>
        hdisj hprv_mem_a (List.mem_cons_of_mem i hm)
      obtain ⟨hhead', htail', hselfc, hprvc, hnxtne, hnxteq, hheadc, hotherc⟩ :=
        update_on_hit_char_psome s i nxt prv hn hp hilen (Ne.symm hinxt)
          hpi hpn hhi
      have hnext_pres : ∀ j, j ≠ i → j ≠ prv → j ≠ s.lru_head →
          (getLine (iplc_sim_LRU_update_on_hit s i) j).lru_next =
            (getLine s j).lru_next := by
        intro j h1 h2 h3
        by_cases hjn : j = nxt
        · subst hjn
          rw [hnxtne hnlen (Ne.symm h3)]
        · rw [hotherc j h1 h2 hjn h3]
      have hprev_pres : ∀ j, j ≠ i → j ≠ nxt →
          (getLine (iplc_sim_LRU_update_on_hit s i) j).lru_prev =
            (getLine s j).lru_prev := by
        intro j h1 h2
        by_cases hjp : j = prv
        · subst hjp
          rw [hprvc hplen hhp]
        · by_cases hjh : j = s.lru_head
          · subst hjh
            rw [hheadc hhlen h2 hhp]
          · rw [hotherc j h1 hjp h2 hjh]
      have htail_a : (a₀ ++ [prv]).head? = some s.lru_tail := by
        have h := inv.tail_eq
        rwa [head?_append_left _ _ (by simp)] at h
      refine ⟨((a₀ ++ [prv]) ++ nxt :: b') ++ [i],
        ⟨by simp, ?_, ?_, ?_, ?_, ?_, ?_, ?_⟩, Or.inl ?_⟩
      · rw [htail', head?_append_left _ _ (by simp),
          head?_append_left _ _ (by simp)]
        exact htail_a
      · rw [List.getLast?_concat, hhead']
      · intro j hj
        rw [hlen']
        exact inv.bounds j (mem_surgery.mp hj)
      · exact nodup_surgery hnd
      · refine List.chain'_append.mpr
          ⟨List.chain'_append.mpr ⟨?_, ?_, ?_⟩, List.chain'_singleton i, ?_⟩
        · -- segment a₀ ++ [prv]
          refine chain'_mem_congr _ ?_ (List.chain'_append.mp inv.links).1
          intro x hx y hy hrel
          by_cases hxp : x = prv
          · have h1 := hrel.1
            rw [hxp, hpn_next] at h1
            injection h1 with h1
            exact absurd (h1 ▸ hy) hia
          · have hxi : x ≠ i := fun he => hia (he ▸ hx)
            have hxh : x ≠ s.lru_head := fun he => hha (he ▸ hx)
            have hyi : y ≠ i := fun he => hia (he ▸ hy)
            have hyn : y ≠ nxt := fun he => hdisj hy (by rw [he]; simp)
            exact nextRel_congr s _ x y (hnext_pres x hxi hxp hxh)
              (hprev_pres y hyi hyn) hrel
        · -- segment nxt :: b'
          refine chain'_mem_congr _ ?_
            (List.chain'_cons.mp (List.chain'_append.mp inv.links).2.1).2
          intro x hx y hy hrel
          by_cases hxh : x = s.lru_head
          · have h1 := hrel.1
            rw [hxh, inv.mru_next] at h1
            exact Option.noConfusion h1
          · have hxi : x ≠ i := fun he => hinb (he ▸ hx)
            have hxp : x ≠ prv := fun he => hpnb (he ▸ hx)
            by_cases hyn : y = nxt
            · have h2 := hrel.2
              rw [hyn] at h2
              have h3 := hpnxt.symm.trans h2
              injection h3 with h3
              exact absurd (h3 ▸ hx) hinb
            · have hyi : y ≠ i := fun he => hinb (he ▸ hy)
              exact nextRel_congr s _ x y (hnext_pres x hxi hxp hxh)
                (hprev_pres y hyi hyn) hrel
        · -- junction prv → nxt
          intro x hx y hy
          rw [Option.mem_def, List.getLast?_concat] at hx
          injection hx with hx
          rw [Option.mem_def, List.head?_cons] at hy
          injection hy with hy
          rw [← hx, ← hy]
          refine ⟨by rw [hprvc hplen hhp], ?_⟩
          by_cases hhn : s.lru_head = nxt
          · rw [hnxteq hnlen hhn]
          · rw [hnxtne hnlen hhn]
        · -- junction head → i
          intro x hx y hy
          rw [Option.mem_def, List.getLast?_append_cons, hlast] at hx
          injection hx with hx
          rw [Option.mem_def] at hy
          injection hy with hy
          rw [← hx, ← hy]
          refine ⟨?_, by rw [hselfc]⟩
          by_cases hhn : s.lru_head = nxt
          · rw [hhn, hnxteq hnlen hhn]
          · rw [hheadc hhlen hhn hhp]
      · rw [hhead', hselfc]
      · rw [htail']
        have htmem : s.lru_tail ∈ a₀ ++ [prv] := head?_mem htail_a
        have ht_i : s.lru_tail ≠ i := fun he => hia (he ▸ htmem)
        have ht_n : s.lru_tail ≠ nxt := fun he =>
          hdisj htmem (by rw [he]; simp)
        rw [hprev_pres _ ht_i ht_n]
        exact inv.tail_prev
      · intro j hj
        rw [hlen'] at hj
        rw [hvt j, hca j hj]
        exact mem_surgery.symm

/-- One probe keeps every set of the cache well formed. -/
theorem trap_preserves_setWF (st : CacheState) (a : Nat) (hinv : CacheInv st)
    (hwf : ∀ s ∈ st.sets, SetWF s) :
    ∀ s' ∈ (iplc_sim_trap_address st a).2.sets, SetWF s' := by
  have hidx : trapIndex st a < st.sets.length := by
    rw [hinv.sets_length]
    exact trapIndex_lt st a
  have hs₀ : st.sets.getD (trapIndex st a) default ∈ st.sets := getD_mem hidx
  rcases trap_cases st a with ⟨i, hscan, heq⟩ | ⟨i, hscan, heq⟩ | ⟨hscan, heq⟩
  · intro s' hs'
    rw [heq] at hs'
    rcases List.mem_or_eq_of_mem_set hs' with hmem | rfl
    · exact hwf s' hmem
    · have hspec := scanWays_hit_spec _ _ _ hscan
      exact setWF_hit _ i (hwf _ hs₀) hspec.2.1 hspec.1
  · intro s' hs'
    rw [heq] at hs'
    rcases List.mem_or_eq_of_mem_set hs' with hmem | rfl
    · exact hwf s' hmem
    · have hspec := scanWays_coldMiss_spec _ _ _ hscan
      exact setWF_cold _ i (trapTag st a) (hwf _ hs₀) hspec.2.1 hspec.1
        (fun j hj => (hspec.2.2 j hj).1)
  · intro s' hs'
    rw [heq] at hs'
    rcases List.mem_or_eq_of_mem_set hs' with hmem | rfl
    · exact hwf s' hmem
    · have hspec := scanWays_fullMiss_spec _ _ hscan
      have hlen1 : 1 ≤ (st.sets.getD (trapIndex st a) default).lines.length := by
        rw [hinv.lines_length _ hs₀]
        exact hinv.assoc_pos
      exact setWF_full _ (trapTag st a) (hwf _ hs₀)
        (fun j hj => (hspec j hj).1) hlen1

/-- Every reachable cache state has only well-formed sets. -/
theorem reachable_setWF {st : CacheState} (h : CacheReachable st) :
    ∀ s ∈ st.sets, SetWF s := by
  induction h with
  | init index boBits assoc ha =>
    intro s hs
    rw [List.eq_of_mem_replicate hs]
    exact setWF_initSet assoc ha
  | step st a hst ih => exact trap_preserves_setWF st a (reachable_inv hst) ih

/-- **C3** After init and after every probe operation, every cache set
satisfies: the recency chain from `lru_tail` via next-links to `lru_head`
contains exactly the valid lines of the set, each exactly once, in
least-to-most recently used order; `lru_prev`/`lru_next` links are mutually
consistent (a well-formed doubly-linked list); the MRU end has
`lru_next = none` and the LRU end has `lru_prev = none`.  This holds for
every sequence of probes from the initial state (`CacheReachable`),
including the state immediately after init, where the chain is a singleton
seeded at `ways[0]` (the second disjunct of `SetWF`, with every line still
invalid). -/
theorem chain_wellformed (st : CacheState) (h : CacheReachable st) :
    ∀ s ∈ st.sets, SetWF s :=
  reachable_setWF h

/-- Witness: the claim instantiated right after an init with two index bits
and two ways per set. -/
theorem chain_wellformed_witness : SetWF (initSet 2) :=
  chain_wellformed (mkCacheState 2 2 2) (CacheReachable.init 2 2 2 (by decide))
    (initSet 2) (by simp [mkCacheState])

end IplcSim
